import Mathlib

/-!
# BigInt: a shallow embedding of `src/big_integer/big_integer.cpp`

The class `BigInt` stores a sign flag `is_positive_` and a vector of decimal
digits `digits_` (least significant digit at index 0, element type `int8_t`).

Conventions of the embedding:

* a `std::vector<int8_t>` is a `List Int`; every store of a computed value into
  an `int8_t` cell goes through `toInt8` (the C++20 modular narrowing);
* the `int` cells of `column_sum` and the `int curr` of `operator*=` grow with
  the operands; every sum stored in them goes through `wrapInt` (32 bits,
  overflow taken as wrap-around);
* the `int` and `int64_t` locals of `operator+=` and `AbsSubstraction` stay
  within a few hundred on `int8_t` digits and are plain `Int`; `/` and `%` are
  the truncating `Int.tdiv` and `Int.tmod` of C++;
* a `for` loop over an index is a `List.foldl` over `List.range`, the loop
  state being the tuple of the variables the body updates;
* the mutual recursion of `operator+=` and `operator-=` and the descending
  search of `Divide` take a `fuel : Nat`; `none` means that the fuel ran out
  or that `digits_[i]` was read outside the vector;
* a `std::string` is a `List Char`;
* statements about the calls a function makes are made on instrumented copies
  (`opPlusAssignLog`, `opMinusAssignLog`, `DivideLog`), which return a record
  next to the result and are proved to return the same result.
-/

namespace BigInteger

/-- The class `BigInt`: the two data members of `big_integer.hpp`. -/
structure BigInt where
  is_positive_ : Bool
  digits_ : List Int
deriving DecidableEq

/-- The constant `BigInt::kBase`. -/
def kBase : Int := 10

/-- Narrowing conversion of an `int` to `int8_t` (modulo 256, into -128..127). -/
def toInt8 (x : Int) : Int := (x + 128) % 256 - 128

/-- The effect of `std::vector::resize(n)`: truncate, or pad with zeros. -/
def resize (v : List Int) (n : Nat) : List Int :=
  (v ++ List.replicate (n - v.length) 0).take n

/-- The digit the string constructor stores for a character, `*it - '0'`
narrowed to `int8_t`. -/
def charDigit (c : Char) : Int := toInt8 ((c.toNat : Int) - 48)

/-- The character `operator<<` writes for a digit,
`static_cast<int8_t>(*it + '0')`. -/
def digitChar (d : Int) : Char := Char.ofNat (toInt8 (d + 48) % 256).toNat

/-- The string constructor `BigInt::BigInt(const std::string&)`. -/
def BigInt.ofString (str : List Char) : BigInt :=
  let negative := str.head? == some '-'
  let body := if negative then str.tail else str
  let digits := body.reverse.map charDigit
  let is_positive := !negative
  let is_positive := if digits.length == 1 && digits.getD 0 0 == 0 then true else is_positive
  if digits.isEmpty then { is_positive_ := true, digits_ := [0] }
  else { is_positive_ := is_positive, digits_ := digits }

/-- The integer constructor `BigInt::BigInt(int64_t)`: `std::to_string`, then
the string constructor. -/
def BigInt.ofInt64 (num : Int) : BigInt :=
  BigInt.ofString (toString num).data

/-- The member `BigInt::GetRowsSum`, reading the current `digits_`. -/
def GetRowsSum (digits rhs : List Int) (addition : Bool) (i : Nat) : Int :=
  let curr : Int := 0
  let curr := if i < digits.length then curr + digits.getD i 0 else curr
  if i < rhs.length then
    if addition then curr + rhs.getD i 0 else curr - rhs.getD i 0
  else curr

/-- The loop of `RemoveZeros`; every iteration pops one digit, so the number of
digits bounds the number of iterations. -/
def RemoveZeros.loop : Nat → List Int → List Int
  | 0, digits => digits
  | k + 1, digits =>
    if digits.length > 1 && digits.getLast? == some 0 then
      RemoveZeros.loop k digits.dropLast
    else digits

/-- The member `BigInt::RemoveZeros`, on the digit vector. -/
def RemoveZeros (digits : List Int) : List Int :=
  RemoveZeros.loop digits.length digits

/-- The unary `BigInt::operator-() const`. -/
def BigInt.opNeg (self : BigInt) : BigInt :=
  if self.digits_.length != 1 || self.digits_.getD 0 0 != 0 then
    { self with is_positive_ := !self.is_positive_ }
  else self

/-- The member `BigInt::Abs`. -/
def BigInt.Abs (self : BigInt) : BigInt :=
  { self with is_positive_ := true }

/-- The lexicographic `operator<=>` of `std::vector<int8_t>`. -/
def vectorCompare : List Int → List Int → Ordering
  | [], [] => Ordering.eq
  | [], _ :: _ => Ordering.lt
  | _ :: _, [] => Ordering.gt
  | x :: xs, y :: ys =>
    if x < y then Ordering.lt
    else if y < x then Ordering.gt
    else vectorCompare xs ys

/-- The three-way comparison `BigInt::operator<=>`. -/
def BigInt.opSpaceship (self rhs : BigInt) : Ordering :=
  if !self.is_positive_ && rhs.is_positive_ then Ordering.lt
  else if self.is_positive_ && !rhs.is_positive_ then Ordering.gt
  else
    let lhs_reversed := self.digits_.reverse
    let rhs_reversed := rhs.digits_.reverse
    if !self.is_positive_ && !rhs.is_positive_ then
      if self.digits_.length != rhs.digits_.length then
        compare rhs.digits_.length self.digits_.length
      else vectorCompare rhs_reversed lhs_reversed
    else if self.digits_.length != rhs.digits_.length then
      compare self.digits_.length rhs.digits_.length
    else vectorCompare lhs_reversed rhs_reversed

/-- The relation `a < b` synthesised from `operator<=>`. -/
def BigInt.opLt (self rhs : BigInt) : Bool :=
  self.opSpaceship rhs == Ordering.lt

/-- The relation `a > b` synthesised from `operator<=>`. -/
def BigInt.opGt (self rhs : BigInt) : Bool :=
  self.opSpaceship rhs == Ordering.gt

/-- The defaulted member-wise `BigInt::operator==`. -/
def BigInt.opEq (self rhs : BigInt) : Bool :=
  self.is_positive_ == rhs.is_positive_ && self.digits_ == rhs.digits_

/-- The carry loop of `operator+=` with the final `push_back(carry)`. -/
def addDigits (digits rhs : List Int) : List Int :=
  let st := (List.range digits.length).foldl
    (fun (st : List Int × Int) i =>
      let curr := GetRowsSum st.1 rhs true i
      let curr := curr + st.2
      (st.1.set i (toInt8 (curr.tmod kBase)), curr.tdiv kBase))
    (digits, 0)
  if st.2 != 0 then st.1 ++ [toInt8 st.2] else st.1

/-- The member `BigInt::AbsSubstraction`: the borrow loop, then `RemoveZeros`. -/
def BigInt.AbsSubstraction (self rhs : BigInt) : BigInt :=
  let st := (List.range self.digits_.length).foldl
    (fun (st : List Int × Int) i =>
      let curr := GetRowsSum st.1 rhs.digits_ false i
      let curr := curr - st.2
      let next : Int × Int := if curr < 0 then (curr + kBase, 1) else (curr, 0)
      (st.1.set i (toInt8 (next.1.tmod kBase)), next.2))
    (self.digits_, 0)
  { self with digits_ := RemoveZeros st.1 }

mutual
/-- The compound `BigInt::operator+=`; the result is the new value of `*this`. -/
def BigInt.opPlusAssign : Nat → BigInt → BigInt → Option BigInt
  | 0, _, _ => none
  | fuel + 1, self, rhs =>
    if !self.is_positive_ && rhs.is_positive_ then
      BigInt.opMinusAssign fuel rhs { self with is_positive_ := true }
    else if self.is_positive_ && !rhs.is_positive_ then
      BigInt.opMinusAssign fuel self rhs.opNeg
    else
      some { self with digits_ := addDigits self.digits_ rhs.digits_ }
/-- The compound `BigInt::operator-=`; the result is the new value of `*this`. -/
def BigInt.opMinusAssign : Nat → BigInt → BigInt → Option BigInt
  | 0, _, _ => none
  | fuel + 1, self, rhs =>
    if !self.is_positive_ && rhs.is_positive_ then
      (BigInt.opPlusAssign fuel { self with is_positive_ := true } rhs).map
        (fun r => { r with is_positive_ := !r.is_positive_ })
    else if self.is_positive_ && !rhs.is_positive_ then
      BigInt.opPlusAssign fuel self rhs.opNeg
    else if !self.is_positive_ && !rhs.is_positive_ then
      BigInt.opMinusAssign fuel rhs.opNeg { self with is_positive_ := !self.is_positive_ }
    else if rhs.opGt self then
      (BigInt.opMinusAssign fuel rhs self).map
        (fun r => { r with is_positive_ := !r.is_positive_ })
    else
      some (self.AbsSubstraction rhs)
end

/-- The binary `BigInt::operator+`: copy, then `+=`. -/
def BigInt.opPlus (fuel : Nat) (self rhs : BigInt) : Option BigInt :=
  BigInt.opPlusAssign fuel self rhs

/-- The binary `BigInt::operator-`: copy, then `-=`. -/
def BigInt.opMinus (fuel : Nat) (self rhs : BigInt) : Option BigInt :=
  BigInt.opMinusAssign fuel self rhs

/-- Arithmetic in the 32-bit `int` of the source: the value modulo `2 ^ 32`,
taken in `-2 ^ 31 .. 2 ^ 31 - 1`. -/
def wrapInt (x : Int) : Int := (x + 2147483648) % 4294967296 - 2147483648

/-- The accumulation of `column_sum` in `operator*=`: the two nested loops,
`column_sum[i + j] += digits_[i] * rhs.digits_[j]` on `int` cells. -/
def columnSums (digits rhs : List Int) : List Int :=
  (List.range digits.length).foldl
    (fun column_sum i =>
      (List.range rhs.length).foldl
        (fun column_sum j =>
          column_sum.set (i + j)
            (wrapInt (column_sum.getD (i + j) 0 + digits.getD i 0 * rhs.getD j 0)))
        column_sum)
    (List.replicate (digits.length + rhs.length) 0)

/-- The carry-propagation loop of `operator*=`, writing into the resized
`digits_`, with `curr = column_sum[i] + carry` an `int`; the carry left after
the last column is dropped, as in the source. -/
def propagate (column_sum digits : List Int) : List Int :=
  ((List.range column_sum.length).foldl
    (fun (st : List Int × Int) i =>
      let curr := wrapInt (column_sum.getD i 0 + st.2)
      (st.1.set i (toInt8 (curr.tmod kBase)), curr.tdiv kBase))
    (resize digits column_sum.length, 0)).1

/-- The compound `BigInt::operator*=`. -/
def BigInt.opStarAssign (self rhs : BigInt) : BigInt :=
  if self.opEq (BigInt.ofInt64 0) || rhs.opEq (BigInt.ofInt64 0) then BigInt.ofInt64 0
  else
    let column_sum := columnSums self.digits_ rhs.digits_
    let digits := propagate column_sum self.digits_
    { is_positive_ := (self.is_positive_ == rhs.is_positive_), digits_ := RemoveZeros digits }

/-- The binary `BigInt::operator*`: copy, then `*=`. -/
def BigInt.opStar (self rhs : BigInt) : BigInt :=
  self.opStarAssign rhs

/-- The first loop of `Divide`,
`for (; temp * kBase + digits_[i] < rhs; --i) { temp *= kBase; temp += digits_[i]; }`.
The numeric argument is `i + 1`; the result is the final `temp` and `i + 1`. -/
def Divide.skip (fuel : Nat) (digits : List Int) (rhs : BigInt) :
    Nat → BigInt → Option (BigInt × Nat)
  | 0, _ => none
  | i + 1, temp => do
    let d ← digits.get? i
    let probe ← (temp.opStar (BigInt.ofInt64 kBase)).opPlus fuel (BigInt.ofInt64 d)
    if probe.opLt rhs then
      let temp ← (temp.opStarAssign (BigInt.ofInt64 kBase)).opPlusAssign fuel (BigInt.ofInt64 d)
      Divide.skip fuel digits rhs i temp
    else some (temp, i + 1)

/-- The descending search of `Divide`,
`for (curr = kBase - 1; BigInt(curr) * rhs > temp; --curr) {}`, started at `curr`
with `fuel` evaluations of the loop condition. -/
def Divide.search (rhs temp : BigInt) : Nat → Int → Option Int
  | 0, _ => none
  | fuel + 1, curr =>
    if ((BigInt.ofInt64 curr).opStar rhs).opGt temp then
      Divide.search rhs temp fuel (curr - 1)
    else some curr

/-- The second loop of `Divide`, `for (; i >= 0; --i)`. The numeric argument is
`i + 1`; the result is the final `temp` and `column_sum`. -/
def Divide.main (fuel : Nat) (digits : List Int) (rhs : BigInt) (is_module : Bool) :
    Nat → BigInt → List Int → Option (BigInt × List Int)
  | 0, temp, column_sum => some (temp, column_sum)
  | i + 1, temp, column_sum => do
    let d ← digits.get? i
    let temp ← (temp.opStar (BigInt.ofInt64 kBase)).opPlus fuel (BigInt.ofInt64 d)
    let curr ← Divide.search rhs temp fuel (kBase - 1)
    let temp ← temp.opMinusAssign fuel ((BigInt.ofInt64 curr).opStar rhs)
    Divide.main fuel digits rhs is_module i temp
      (if !is_module then column_sum ++ [toInt8 curr] else column_sum)

/-- The member `BigInt::Divide`; the result is the new value of `*this`. -/
def BigInt.Divide (fuel : Nat) (self rhs : BigInt) (is_module : Bool) : Option BigInt := do
  let start ← Divide.skip fuel self.digits_ rhs self.digits_.length (BigInt.ofInt64 0)
  let final ← Divide.main fuel self.digits_ rhs is_module start.2 start.1 []
  if is_module then some final.1 else some { self with digits_ := final.2 }

/-- The compound `BigInt::operator/=`. -/
def BigInt.opSlashAssign (fuel : Nat) (self rhs : BigInt) : Option BigInt :=
  if self.Abs.opLt rhs.Abs then some (BigInt.ofInt64 0)
  else do
    let q ← self.Divide fuel rhs false
    some { is_positive_ := (q.is_positive_ == rhs.is_positive_), digits_ := q.digits_.reverse }

/-- The binary `BigInt::operator/`: copy, then `/=`. -/
def BigInt.opSlash (fuel : Nat) (self rhs : BigInt) : Option BigInt :=
  self.opSlashAssign fuel rhs

/-- The compound `BigInt::operator%=`. -/
def BigInt.opPercentAssign (fuel : Nat) (self rhs : BigInt) : Option BigInt :=
  let new_sign := self.is_positive_
  let self := { self with is_positive_ := true }
  if self.opLt rhs.Abs then some { self with is_positive_ := new_sign }
  else do
    let r ← self.Divide fuel rhs true
    some { r with is_positive_ := new_sign }

/-- The binary `BigInt::operator%`: copy, then `%=`. -/
def BigInt.opPercent (fuel : Nat) (self rhs : BigInt) : Option BigInt :=
  self.opPercentAssign fuel rhs

/-- The pre-increment `BigInt::operator++()`: the new value of `*this`, which
is also the value returned. -/
def BigInt.opPreInc (fuel : Nat) (self : BigInt) : Option BigInt :=
  self.opPlusAssign fuel (BigInt.ofInt64 1)

/-- The post-increment `BigInt::operator++(int)`: the new value of `*this` and
the value returned. -/
def BigInt.opPostInc (fuel : Nat) (self : BigInt) : Option (BigInt × BigInt) :=
  let temp := self
  (self.opPlusAssign fuel (BigInt.ofInt64 1)).map (fun updated => (updated, temp))

/-- The pre-decrement `BigInt::operator--()`: the new value of `*this`, which
is also the value returned. -/
def BigInt.opPreDec (fuel : Nat) (self : BigInt) : Option BigInt :=
  self.opMinusAssign fuel (BigInt.ofInt64 1)

/-- The post-decrement `BigInt::operator--(int)`: the new value of `*this` and
the value returned. -/
def BigInt.opPostDec (fuel : Nat) (self : BigInt) : Option (BigInt × BigInt) :=
  let temp := self
  (self.opMinusAssign fuel (BigInt.ofInt64 1)).map (fun updated => (updated, temp))

/-- The text written by `operator<<`: `-` when negative, then the digits from
the most significant one, each as the character of `digitChar`. -/
def BigInt.print (rhs : BigInt) : List Char :=
  (if !rhs.is_positive_ then ['-'] else []) ++
    rhs.digits_.reverse.map digitChar

/-! ## The abstraction: canonical form and integer value -/

/-- The number a digit vector denotes, least significant digit first. -/
def magnitude : List Int → Int
  | [] => 0
  | d :: ds => d + 10 * magnitude ds

/-- The signed integer a `BigInt` denotes. -/
def BigInt.val (a : BigInt) : Int :=
  if a.is_positive_ then magnitude a.digits_ else - magnitude a.digits_

/-- Canonical form: a non-empty digit vector, every digit in `0..9`, no most
significant zero except for the single digit `0`, and zero is non-negative. -/
def BigInt.Canonical (a : BigInt) : Prop :=
  a.digits_ ≠ [] ∧ (∀ d ∈ a.digits_, 0 ≤ d ∧ d ≤ 9) ∧
    (1 < a.digits_.length → a.digits_.getLast? ≠ some 0) ∧
    (a.digits_ = [0] → a.is_positive_ = true)

instance BigInt.decidableCanonical (a : BigInt) : Decidable a.Canonical := by
  unfold BigInt.Canonical
  infer_instance

/-- The expression `(a / b) * b + (a % b) == a` of the division identity. -/
def divisionIdentity (fuel : Nat) (a b : BigInt) : Option Bool := do
  let q ← a.opSlash fuel b
  let r ← a.opPercent fuel b
  let s ← (q.opStar b).opPlus fuel r
  some (s.opEq a)

/-- The expression `a + b == b + a` of commutativity. -/
def plusCommutes (fuel : Nat) (a b : BigInt) : Option Bool := do
  let s ← a.opPlus fuel b
  let t ← b.opPlus fuel a
  some (s.opEq t)

/-- Every element of a digit vector is a decimal digit. -/
def DigitsOk (ds : List Int) : Prop := ∀ d ∈ ds, 0 ≤ d ∧ d ≤ 9

/-- The digit part of canonical form. -/
def CanonDigits (ds : List Int) : Prop :=
  ds ≠ [] ∧ DigitsOk ds ∧ (1 < ds.length → ds.getLast? ≠ some 0)

/-- Every cell of an accumulator vector is non-negative. -/
def NonNeg (l : List Int) : Prop := ∀ e ∈ l, 0 ≤ e

/-- The borrow loop of `AbsSubstraction`: the final digits and the final borrow. -/
def borrowLoop (digits rhs : List Int) : List Int × Int :=
  (List.range digits.length).foldl
    (fun (st : List Int × Int) i =>
      let curr := GetRowsSum st.1 rhs false i
      let curr := curr - st.2
      let next : Int × Int := if curr < 0 then (curr + kBase, 1) else (curr, 0)
      (st.1.set i (toInt8 (next.1.tmod kBase)), next.2))
    (digits, 0)

/-- The two nested loops of `columnSums` on exact integers, for the proofs:
what the cells of `column_sum` hold as long as none of them overflows. -/
def columnSumsExact (digits rhs : List Int) : List Int :=
  (List.range digits.length).foldl
    (fun column_sum i =>
      (List.range rhs.length).foldl
        (fun column_sum j =>
          column_sum.set (i + j) (column_sum.getD (i + j) 0 + digits.getD i 0 * rhs.getD j 0))
        column_sum)
    (List.replicate (digits.length + rhs.length) 0)

/-- The loop of `propagate` on exact integers, for the proofs: what the carry
pass writes as long as `curr` does not overflow. -/
def propagateExact (column_sum digits : List Int) : List Int :=
  ((List.range column_sum.length).foldl
    (fun (st : List Int × Int) i =>
      let curr := column_sum.getD i 0 + st.2
      (st.1.set i (toInt8 (curr.tmod kBase)), curr.tdiv kBase))
    (resize digits column_sum.length, 0)).1

/-- The exact value of cell `k` of `column_sum`, for the proofs: the sum of the
products `digits[i] * rhs[j]` over the pairs with `i + j = k`. -/
def cellSum (digits rhs : List Int) (k : Nat) : Int :=
  ∑ i ∈ Finset.range digits.length, ∑ j ∈ Finset.range rhs.length,
    if i + j = k then digits.getD i 0 * rhs.getD j 0 else 0

/-! ## Instrumented operations

The functions below repeat `operator+=`, `operator-=` and `Divide` and return,
next to the result, the list of what happened on the way: every entry into
`AbsSubstraction` with its two operands, every value assigned to `temp` and
every value at which the descending search stopped. -/

/-- What the instrumented operations record. -/
inductive Event where
  | absSub (self rhs : BigInt) : Event
  | temp (value : BigInt) : Event
  | digit (curr : Int) : Event

mutual
/-- The compound `operator+=` with the record of its `AbsSubstraction` calls. -/
def BigInt.opPlusAssignLog : Nat → BigInt → BigInt → Option (BigInt × List Event)
  | 0, _, _ => none
  | fuel + 1, self, rhs =>
    if !self.is_positive_ && rhs.is_positive_ then
      BigInt.opMinusAssignLog fuel rhs { self with is_positive_ := true }
    else if self.is_positive_ && !rhs.is_positive_ then
      BigInt.opMinusAssignLog fuel self rhs.opNeg
    else
      some ({ self with digits_ := addDigits self.digits_ rhs.digits_ }, [])
/-- The compound `operator-=` with the record of its `AbsSubstraction` calls. -/
def BigInt.opMinusAssignLog : Nat → BigInt → BigInt → Option (BigInt × List Event)
  | 0, _, _ => none
  | fuel + 1, self, rhs =>
    if !self.is_positive_ && rhs.is_positive_ then
      (BigInt.opPlusAssignLog fuel { self with is_positive_ := true } rhs).map
        (fun r => ({ r.1 with is_positive_ := !r.1.is_positive_ }, r.2))
    else if self.is_positive_ && !rhs.is_positive_ then
      BigInt.opPlusAssignLog fuel self rhs.opNeg
    else if !self.is_positive_ && !rhs.is_positive_ then
      BigInt.opMinusAssignLog fuel rhs.opNeg { self with is_positive_ := !self.is_positive_ }
    else if rhs.opGt self then
      (BigInt.opMinusAssignLog fuel rhs self).map
        (fun r => ({ r.1 with is_positive_ := !r.1.is_positive_ }, r.2))
    else
      some (self.AbsSubstraction rhs, [Event.absSub self rhs])
end

theorem toInt8_of_small (x : Int) (h0 : -128 ≤ x) (h1 : x ≤ 127) : toInt8 x = x := by
  unfold toInt8
  omega

theorem magnitude_nil : magnitude [] = 0 := rfl

theorem magnitude_cons (d : Int) (ds : List Int) :
    magnitude (d :: ds) = d + 10 * magnitude ds := rfl

theorem magnitude_append (xs ys : List Int) :
    magnitude (xs ++ ys) = magnitude xs + 10 ^ xs.length * magnitude ys := by
  induction xs with
  | nil => simp [magnitude]
  | cons x xs ih =>
    rw [List.cons_append, magnitude_cons, magnitude_cons, ih, List.length_cons, pow_succ]
    ring

theorem magnitude_nonneg (ds : List Int) (h : DigitsOk ds) : 0 ≤ magnitude ds := by
  induction ds with
  | nil => simp [magnitude]
  | cons d ds ih =>
    have hd := h d (List.mem_cons_self _ _)
    have := ih (fun e he => h e (List.mem_cons_of_mem _ he))
    simp only [magnitude]
    omega

theorem magnitude_lt_pow (ds : List Int) (h : DigitsOk ds) : magnitude ds < 10 ^ ds.length := by
  induction ds with
  | nil => simp [magnitude]
  | cons d ds ih =>
    have hd := h d (List.mem_cons_self _ _)
    have := ih (fun e he => h e (List.mem_cons_of_mem _ he))
    simp only [magnitude, List.length_cons, pow_succ]
    omega

theorem magnitude_replicate_zero (n : Nat) : magnitude (List.replicate n 0) = 0 := by
  induction n with
  | zero => rfl
  | succ n ih => simp [List.replicate_succ, magnitude, ih]

theorem magnitude_set (xs : List Int) (i : Nat) (v : Int) (hi : i < xs.length) :
    magnitude (xs.set i v) = magnitude xs + (v - xs.getD i 0) * 10 ^ i := by
  induction xs generalizing i with
  | nil => simp at hi
  | cons x xs ih =>
    cases i with
    | zero =>
      simp only [List.set_cons_zero, magnitude_cons, List.getD_cons_zero, pow_zero]
      ring
    | succ i =>
      have hi2 : i < xs.length := by simpa using hi
      simp only [List.set_cons_succ, magnitude_cons, ih i hi2, List.getD_cons_succ, pow_succ]
      ring

theorem magnitude_take_succ (xs : List Int) (k : Nat) (hk : k < xs.length) :
    magnitude (xs.take (k + 1)) = magnitude (xs.take k) + xs.getD k 0 * 10 ^ k := by
  induction xs generalizing k with
  | nil => simp at hk
  | cons x xs ih =>
    cases k with
    | zero => simp [magnitude]
    | succ k =>
      have hk2 : k < xs.length := by simpa using hk
      simp only [List.take_succ_cons, magnitude_cons, ih k hk2, List.getD_cons_succ, pow_succ]
      ring

theorem DigitsOk_cons (d : Int) (ds : List Int) :
    DigitsOk (d :: ds) ↔ (0 ≤ d ∧ d ≤ 9) ∧ DigitsOk ds := by
  unfold DigitsOk
  simp

theorem DigitsOk_append (xs ys : List Int) :
    DigitsOk (xs ++ ys) ↔ DigitsOk xs ∧ DigitsOk ys := by
  unfold DigitsOk
  simp only [List.mem_append]
  constructor
  · intro h
    exact ⟨fun d hd => h d (Or.inl hd), fun d hd => h d (Or.inr hd)⟩
  · rintro ⟨h1, h2⟩ d (hd | hd)
    · exact h1 d hd
    · exact h2 d hd

theorem eq_dropLast_append_of_getLast (ds : List Int) (x : Int)
    (h : ds.getLast? = some x) : ds = ds.dropLast ++ [x] := by
  have hne : ds ≠ [] := by
    intro h0
    simp [h0] at h
  have h2 := List.dropLast_append_getLast hne
  rw [List.getLast?_eq_getLast _ hne] at h
  injection h with h
  rw [h] at h2
  exact h2.symm

theorem RemoveZeros_loop_spec (k : Nat) : ∀ ds : List Int,
    magnitude (RemoveZeros.loop k ds) = magnitude ds ∧
    (DigitsOk ds → DigitsOk (RemoveZeros.loop k ds)) ∧
    (ds ≠ [] → RemoveZeros.loop k ds ≠ []) ∧
    (ds.length ≤ k + 1 → 1 < (RemoveZeros.loop k ds).length →
      (RemoveZeros.loop k ds).getLast? ≠ some 0) := by
  induction k with
  | zero =>
    intro ds
    refine ⟨rfl, fun h => h, fun h => h, ?_⟩
    intro h1 h2
    simp only [RemoveZeros.loop] at h2
    omega
  | succ k ih =>
    intro ds
    rw [RemoveZeros.loop]
    by_cases hc : (decide (ds.length > 1) && ds.getLast? == some 0) = true
    · rw [if_pos hc]
      simp only [Bool.and_eq_true, decide_eq_true_eq, beq_iff_eq] at hc
      obtain ⟨hlen, hlast⟩ := hc
      have hsplit := eq_dropLast_append_of_getLast ds 0 hlast
      obtain ⟨i1, i2, i3, i4⟩ := ih ds.dropLast
      refine ⟨?_, ?_, ?_, ?_⟩
      · rw [i1]
        conv_rhs => rw [hsplit]
        rw [magnitude_append]
        simp [magnitude_cons, magnitude_nil]
      · intro hok
        apply i2
        rw [hsplit, DigitsOk_append] at hok
        exact hok.1
      · intro _
        apply i3
        intro h0
        have : ds.dropLast.length = 0 := by rw [h0]; rfl
        rw [List.length_dropLast] at this
        omega
      · intro hle
        apply i4
        rw [List.length_dropLast]
        omega
    · rw [if_neg hc]
      refine ⟨rfl, fun h => h, fun h => h, ?_⟩
      intro _ h2 h3
      apply hc
      simp [h2, h3]

theorem RemoveZeros_spec (ds : List Int) :
    magnitude (RemoveZeros ds) = magnitude ds ∧
    (DigitsOk ds → DigitsOk (RemoveZeros ds)) ∧
    (ds ≠ [] → RemoveZeros ds ≠ []) ∧
    (1 < (RemoveZeros ds).length → (RemoveZeros ds).getLast? ≠ some 0) := by
  obtain ⟨h1, h2, h3, h4⟩ := RemoveZeros_loop_spec ds.length ds
  exact ⟨h1, h2, h3, h4 (by omega)⟩

/-- A digit vector whose most significant digit is not zero denotes at least
`10 ^ (length - 1)`. -/
theorem pow_le_magnitude (ds : List Int) (hok : DigitsOk ds) (hne : ds ≠ [])
    (hlast : ds.getLast? ≠ some 0) : 10 ^ (ds.length - 1) ≤ magnitude ds := by
  obtain ⟨x, hx⟩ : ∃ x, ds.getLast? = some x := by
    rw [List.getLast?_eq_getLast _ hne]
    exact ⟨_, rfl⟩
  have hsplit := eq_dropLast_append_of_getLast ds x hx
  have hx0 : x ≠ 0 := by
    intro h0
    apply hlast
    rw [hx, h0]
  rw [hsplit, DigitsOk_append] at hok
  have hxr : 0 ≤ x ∧ x ≤ 9 := hok.2 x (List.mem_singleton_self x)
  have hm := magnitude_nonneg _ hok.1
  have hlen : ds.length - 1 = ds.dropLast.length := by rw [List.length_dropLast]
  rw [hlen]
  conv_rhs => rw [hsplit]
  rw [magnitude_append, magnitude_cons, magnitude_nil]
  have hp : (0 : Int) < 10 ^ ds.dropLast.length := by positivity
  have hx1 : 1 ≤ x := by omega
  nlinarith

/-! ## Comparison -/

theorem Canonical_iff (a : BigInt) :
    a.Canonical ↔ CanonDigits a.digits_ ∧ (a.digits_ = [0] → a.is_positive_ = true) := by
  unfold BigInt.Canonical CanonDigits DigitsOk
  tauto

theorem CanonDigits_pos (ds : List Int) (h : CanonDigits ds) (h0 : ds ≠ [0]) :
    0 < magnitude ds := by
  obtain ⟨hne, hok, hlast⟩ := h
  by_cases hlen : 1 < ds.length
  · have := pow_le_magnitude ds hok hne (hlast hlen)
    have hp : (0 : Int) < 10 ^ (ds.length - 1) := by positivity
    omega
  · match ds, hne, hok, h0, hlen with
    | [d], _, hok, h0, _ =>
      have hd := hok d (List.mem_singleton_self d)
      have : d ≠ 0 := fun h => h0 (by rw [h])
      rw [magnitude_cons, magnitude_nil]
      omega
    | _ :: _ :: _, _, _, _, hlen => simp at hlen

theorem magnitude_lt_of_length_lt (xs ys : List Int) (hx : CanonDigits xs)
    (hy : CanonDigits ys) (hlen : xs.length < ys.length) : magnitude xs < magnitude ys := by
  have hxl : 0 < xs.length := List.length_pos.mpr hx.1
  have h1 := magnitude_lt_pow xs hx.2.1
  have h2 := pow_le_magnitude ys hy.2.1 hy.1 (hy.2.2 (by omega))
  have h3 : (10 : Int) ^ xs.length ≤ 10 ^ (ys.length - 1) :=
    pow_le_pow_right₀ (by norm_num) (by omega)
  omega

theorem vectorCompare_eq_compare : ∀ xs ys : List Int, xs.length = ys.length →
    DigitsOk xs → DigitsOk ys →
    vectorCompare xs ys = compare (magnitude xs.reverse) (magnitude ys.reverse)
  | [], [], _, _, _ => by
    rw [vectorCompare, eq_comm, compare_eq_iff_eq]
  | [], _ :: _, h, _, _ => by simp at h
  | _ :: _, [], h, _, _ => by simp at h
  | x :: xs, y :: ys, h, hx, hy => by
    have hlen : xs.length = ys.length := by simpa using h
    rw [DigitsOk_cons] at hx hy
    have ih := vectorCompare_eq_compare xs ys hlen hx.2 hy.2
    have hxo : DigitsOk xs.reverse := fun d hd => hx.2 d (List.mem_reverse.mp hd)
    have hyo : DigitsOk ys.reverse := fun d hd => hy.2 d (List.mem_reverse.mp hd)
    have a0 := magnitude_nonneg _ hxo
    have a1 := magnitude_lt_pow _ hxo
    have b0 := magnitude_nonneg _ hyo
    have b1 := magnitude_lt_pow _ hyo
    rw [List.length_reverse] at a1 b1
    rw [← hlen] at b1
    have hp : (0 : Int) < 10 ^ xs.length := by positivity
    simp only [List.reverse_cons, magnitude_append, magnitude_cons, magnitude_nil,
      List.length_reverse, ← hlen]
    rw [vectorCompare]
    by_cases c1 : x < y
    · rw [if_pos c1, eq_comm, compare_lt_iff_lt]
      nlinarith
    · rw [if_neg c1]
      by_cases c2 : y < x
      · rw [if_pos c2, eq_comm, compare_gt_iff_gt]
        nlinarith
      · rw [if_neg c2, ih]
        have hxy : x = y := by omega
        subst hxy
        rcases lt_trichotomy (magnitude xs.reverse) (magnitude ys.reverse) with h | h | h
        · rw [compare_lt_iff_lt.mpr h, eq_comm, compare_lt_iff_lt]
          omega
        · rw [compare_eq_iff_eq.mpr h, eq_comm, compare_eq_iff_eq]
          omega
        · rw [compare_gt_iff_gt.mpr h, eq_comm, compare_gt_iff_gt]
          omega

/-- The comparison of two non-negative values in `operator<=>`: digit count
first, then the digits from the most significant one. -/
theorem digits_compare (xs ys : List Int) (hx : CanonDigits xs) (hy : CanonDigits ys) :
    (if (xs.length != ys.length) = true then compare xs.length ys.length
      else vectorCompare xs.reverse ys.reverse) = compare (magnitude xs) (magnitude ys) := by
  by_cases hlen : xs.length = ys.length
  · have hxo : DigitsOk xs.reverse := fun d hd => hx.2.1 d (List.mem_reverse.mp hd)
    have hyo : DigitsOk ys.reverse := fun d hd => hy.2.1 d (List.mem_reverse.mp hd)
    have := vectorCompare_eq_compare xs.reverse ys.reverse (by simpa using hlen) hxo hyo
    simp only [List.reverse_reverse] at this
    simp [hlen, this]
  · have hc : (xs.length != ys.length) = true := by simpa using hlen
    rw [if_pos hc]
    rcases Nat.lt_or_gt_of_ne hlen with h | h
    · rw [compare_lt_iff_lt.mpr h, eq_comm, compare_lt_iff_lt]
      exact magnitude_lt_of_length_lt xs ys hx hy h
    · rw [compare_gt_iff_gt.mpr h, eq_comm, compare_gt_iff_gt]
      exact magnitude_lt_of_length_lt ys xs hy hx h

theorem compare_neg_neg (x y : Int) : compare (-x) (-y) = compare y x := by
  rcases lt_trichotomy x y with h | h | h
  · rw [compare_gt_iff_gt.mpr h, compare_gt_iff_gt]
    omega
  · rw [h, compare_eq_iff_eq.mpr rfl, compare_eq_iff_eq.mpr rfl]
  · rw [compare_lt_iff_lt.mpr h, compare_lt_iff_lt]
    omega

theorem opSpaceship_eq_compare (a b : BigInt) (ha : a.Canonical) (hb : b.Canonical) :
    a.opSpaceship b = compare a.val b.val := by
  rw [Canonical_iff] at ha hb
  obtain ⟨ha, hza⟩ := ha
  obtain ⟨hb, hzb⟩ := hb
  have ma := magnitude_nonneg _ ha.2.1
  have mb := magnitude_nonneg _ hb.2.1
  unfold BigInt.opSpaceship BigInt.val
  cases hsa : a.is_positive_ <;> cases hsb : b.is_positive_
  · simp only [Bool.not_false, Bool.and_false, Bool.false_eq_true, if_false, Bool.and_self,
      if_true, Bool.false_and]
    rw [compare_neg_neg]
    have hswap : (a.digits_.length != b.digits_.length) =
        (b.digits_.length != a.digits_.length) := by
      simp only [bne, Nat.beq_eq_true_eq, eq_comm]
      by_cases h : a.digits_.length = b.digits_.length <;> simp [h, eq_comm]
    rw [hswap]
    exact digits_compare _ _ hb ha
  · have pa := CanonDigits_pos _ ha (fun h => by simpa [hsa] using hza h)
    simp only [Bool.not_false, Bool.and_self, if_true, Bool.false_eq_true, if_false]
    rw [eq_comm, compare_lt_iff_lt]
    omega
  · have pb := CanonDigits_pos _ hb (fun h => by simpa [hsb] using hzb h)
    simp only [Bool.not_true, Bool.and_self, Bool.false_eq_true, if_false, Bool.not_false,
      if_true]
    rw [eq_comm, compare_gt_iff_gt]
    omega
  · simp only [Bool.not_true, Bool.false_and, Bool.and_false, Bool.false_eq_true, if_false,
      Bool.and_self, if_true]
    exact digits_compare _ _ ha hb

theorem magnitude_injective_of_length : ∀ xs ys : List Int, xs.length = ys.length →
    DigitsOk xs → DigitsOk ys → magnitude xs = magnitude ys → xs = ys
  | [], [], _, _, _, _ => rfl
  | [], _ :: _, h, _, _, _ => by simp at h
  | _ :: _, [], h, _, _, _ => by simp at h
  | x :: xs, y :: ys, h, hx, hy, hm => by
    rw [DigitsOk_cons] at hx hy
    rw [magnitude_cons, magnitude_cons] at hm
    have hxy : x = y := by omega
    have hm2 : magnitude xs = magnitude ys := by omega
    rw [hxy, magnitude_injective_of_length xs ys (by simpa using h) hx.2 hy.2 hm2]

theorem CanonDigits_injective (xs ys : List Int) (hx : CanonDigits xs) (hy : CanonDigits ys)
    (hm : magnitude xs = magnitude ys) : xs = ys := by
  apply magnitude_injective_of_length xs ys _ hx.2.1 hy.2.1 hm
  by_contra hlen
  rcases Nat.lt_or_gt_of_ne hlen with h | h
  · have := magnitude_lt_of_length_lt xs ys hx hy h
    omega
  · have := magnitude_lt_of_length_lt ys xs hy hx h
    omega

theorem val_injective (a b : BigInt) (ha : a.Canonical) (hb : b.Canonical)
    (h : a.val = b.val) : a = b := by
  rw [Canonical_iff] at ha hb
  obtain ⟨ha, hza⟩ := ha
  obtain ⟨hb, hzb⟩ := hb
  have ma := magnitude_nonneg _ ha.2.1
  have mb := magnitude_nonneg _ hb.2.1
  obtain ⟨sa, da⟩ := a
  obtain ⟨sb, db⟩ := b
  simp only [BigInt.val] at h
  simp only at ha hb hza hzb ma mb
  cases sa <;> cases sb
  · simp only [Bool.false_eq_true, if_false] at h
    rw [CanonDigits_injective da db ha hb (by omega)]
  · have pa := CanonDigits_pos _ ha (fun h => by simpa using hza h)
    simp only [Bool.false_eq_true, if_false, if_true] at h
    omega
  · have pb := CanonDigits_pos _ hb (fun h => by simpa using hzb h)
    simp only [Bool.false_eq_true, if_false, if_true] at h
    omega
  · simp only [if_true] at h
    rw [CanonDigits_injective da db ha hb h]

/-- C10: for canonical `a` and `b`, `operator<=>` returns less, equal or greater
exactly when `val a < val b`, `val a = val b` or `val a > val b`, and the
member-wise `operator==` holds exactly when `val a = val b`. -/
theorem opSpaceship_agrees_with_integer_order (a b : BigInt)
    (ha : a.Canonical) (hb : b.Canonical) :
    (a.opSpaceship b = Ordering.lt ↔ a.val < b.val) ∧
    (a.opSpaceship b = Ordering.eq ↔ a.val = b.val) ∧
    (a.opSpaceship b = Ordering.gt ↔ a.val > b.val) ∧
    (a.opEq b = true ↔ a.val = b.val) := by
  rw [opSpaceship_eq_compare a b ha hb]
  refine ⟨compare_lt_iff_lt, compare_eq_iff_eq, compare_gt_iff_gt, ?_⟩
  constructor
  · intro h
    simp only [BigInt.opEq, Bool.and_eq_true, beq_iff_eq] at h
    unfold BigInt.val
    rw [h.1, h.2]
  · intro h
    have := val_injective a b ha hb h
    subst this
    simp [BigInt.opEq]

/-- C10 at `-5` and `-3`, and at `-1` and `0`: both comparisons give less. -/
theorem opSpaceship_agrees_with_integer_order_witness :
    (BigInt.ofInt64 (-5)).Canonical ∧ (BigInt.ofInt64 (-3)).Canonical ∧
    ((BigInt.ofInt64 (-5)).opSpaceship (BigInt.ofInt64 (-3)) = Ordering.lt ↔
      (BigInt.ofInt64 (-5)).val < (BigInt.ofInt64 (-3)).val) ∧
    (BigInt.ofInt64 (-5)).opLt (BigInt.ofInt64 (-3)) = true ∧
    (BigInt.ofInt64 (-1)).opLt (BigInt.ofInt64 0) = true :=
  ⟨by decide, by decide,
    (opSpaceship_agrees_with_integer_order (BigInt.ofInt64 (-5)) (BigInt.ofInt64 (-3))
      (by decide) (by decide)).1,
    by decide, by decide⟩

/-! ## Text conversion -/

theorem digitChar_spec (d : Int) (h0 : 0 ≤ d) (h9 : d ≤ 9) :
    charDigit (digitChar d) = d ∧ digitChar d ≠ '-' := by
  have h : d = 0 ∨ d = 1 ∨ d = 2 ∨ d = 3 ∨ d = 4 ∨ d = 5 ∨ d = 6 ∨ d = 7 ∨ d = 8 ∨ d = 9 := by
    omega
  rcases h with h | h | h | h | h | h | h | h | h | h <;> subst h <;> decide

theorem map_charDigit_digitChar (ds : List Int) (h : DigitsOk ds) :
    (ds.map digitChar).map charDigit = ds := by
  induction ds with
  | nil => rfl
  | cons d ds ih =>
    rw [DigitsOk_cons] at h
    rw [List.map_cons, List.map_cons, ih h.2, (digitChar_spec d h.1.1 h.1.2).1]

theorem head?_map_digitChar_ne (ds : List Int) (h : DigitsOk ds) :
    ((ds.map digitChar).head? == some '-') = false := by
  cases ds with
  | nil => rfl
  | cons d ds =>
    rw [DigitsOk_cons] at h
    have := (digitChar_spec d h.1.1 h.1.2).2
    simpa using this

theorem ofString_digits (s : Bool) (ds : List Int) (hne : ds ≠ [])
    (hz : ds = [0] → s = true) (body : List Char)
    (hbody : body.reverse.map charDigit = ds) :
    (let digits := body.reverse.map charDigit
     let is_positive := s
     let is_positive :=
       if digits.length == 1 && digits.getD 0 0 == 0 then true else is_positive
     if digits.isEmpty then ({ is_positive_ := true, digits_ := [0] } : BigInt)
     else { is_positive_ := is_positive, digits_ := digits }) = ⟨s, ds⟩ := by
  simp only [hbody]
  have hemp : ds.isEmpty = false := by
    cases ds with
    | nil => exact absurd rfl hne
    | cons _ _ => rfl
  rw [hemp]
  simp only [Bool.false_eq_true, if_false]
  congr 1
  by_cases hc : (ds.length == 1 && ds.getD 0 0 == 0) = true
  · rw [if_pos hc]
    simp only [Bool.and_eq_true, beq_iff_eq] at hc
    symm
    apply hz
    match ds, hc with
    | [d], hc =>
      simp only [List.getD_cons_zero] at hc
      rw [hc.2]
  · rw [if_neg hc]

/-- C9: for every canonical `a`, the string constructor applied to the text
that `operator<<` writes for `a` gives back `a`: the same sign flag and the
same digit vector. -/
theorem ofString_print_roundtrip (a : BigInt) (ha : a.Canonical) :
    BigInt.ofString a.print = a := by
  obtain ⟨hne, hok, _, hz⟩ := ha
  obtain ⟨s, ds⟩ := a
  simp only at hne hok hz
  have hrev : DigitsOk ds.reverse := fun d hd => hok d (List.mem_reverse.mp hd)
  have hbody : ((ds.reverse.map digitChar).reverse).map charDigit = ds := by
    rw [← List.map_reverse, List.reverse_reverse]
    exact map_charDigit_digitChar ds hok
  have hhead := head?_map_digitChar_ne ds.reverse hrev
  cases s with
  | true =>
    have hp : BigInt.print ⟨true, ds⟩ = ds.reverse.map digitChar := by
      simp [BigInt.print]
    rw [hp]
    unfold BigInt.ofString
    simp only [hhead, Bool.false_eq_true, if_false, Bool.not_false]
    exact ofString_digits true ds hne (fun _ => rfl) _ hbody
  | false =>
    have hp : BigInt.print ⟨false, ds⟩ = '-' :: ds.reverse.map digitChar := by
      simp [BigInt.print]
    rw [hp]
    unfold BigInt.ofString
    simp only [List.head?_cons, beq_self_eq_true, if_true, List.tail_cons, Bool.not_true]
    exact ofString_digits false ds hne hz _ hbody

/-- C9 at `-9223372036854775808`: the printed text parses back to the value. -/
theorem ofString_print_roundtrip_witness :
    (BigInt.ofInt64 (-9223372036854775808)).Canonical ∧
    BigInt.ofString (BigInt.ofInt64 (-9223372036854775808)).print =
      BigInt.ofInt64 (-9223372036854775808) :=
  ⟨by decide, ofString_print_roundtrip (BigInt.ofInt64 (-9223372036854775808)) (by decide)⟩

/-! ## Multiplication

First the two loops of `operator*=` on exact integers (`columnSumsExact`,
`propagateExact`), then the bridge: the `int` cells and `curr` of the source
hold the exact values as long as one operand has at most `23860929` digits
(`90 * 23860929 < 2 ^ 31`). -/

theorem NonNeg_of_DigitsOk (l : List Int) (h : DigitsOk l) : NonNeg l :=
  fun e he => (h e he).1

theorem getD_nonneg (l : List Int) (h : NonNeg l) (i : Nat) : 0 ≤ l.getD i 0 := by
  induction l generalizing i with
  | nil => simp
  | cons x xs ih =>
    cases i with
    | zero => simpa using h x (List.mem_cons_self _ _)
    | succ i => simpa using ih (fun e he => h e (List.mem_cons_of_mem _ he)) i

theorem NonNeg_set (l : List Int) (h : NonNeg l) (i : Nat) (v : Int) (hv : 0 ≤ v) :
    NonNeg (l.set i v) := by
  intro e he
  rcases List.mem_or_eq_of_mem_set he with h1 | h1
  · exact h e h1
  · rw [h1]
    exact hv

theorem NonNeg_replicate_zero (n : Nat) : NonNeg (List.replicate n 0) := by
  intro e he
  rw [List.eq_of_mem_replicate he]

theorem take_set_succ (l : List Int) (k : Nat) (v : Int) (hk : k < l.length) :
    (l.set k v).take (k + 1) = l.take k ++ [v] := by
  induction l generalizing k with
  | nil => simp at hk
  | cons x xs ih =>
    cases k with
    | zero => simp
    | succ k =>
      have hk2 : k < xs.length := by simpa using hk
      simp [ih k hk2]

/-- On exact integers the inner loop of `operator*=` adds `x * rhs` shifted by
`i` columns. -/
theorem columnSums_inner (x : Int) (hx : 0 ≤ x) (rhs : List Int) (hr : NonNeg rhs) (i : Nat)
    (k : Nat) : ∀ cs : List Int, k ≤ rhs.length → i + rhs.length ≤ cs.length → NonNeg cs →
    ((List.range k).foldl
      (fun column_sum j => column_sum.set (i + j) (column_sum.getD (i + j) 0 + x * rhs.getD j 0))
      cs).length = cs.length ∧
    NonNeg ((List.range k).foldl
      (fun column_sum j => column_sum.set (i + j) (column_sum.getD (i + j) 0 + x * rhs.getD j 0))
      cs) ∧
    magnitude ((List.range k).foldl
      (fun column_sum j => column_sum.set (i + j) (column_sum.getD (i + j) 0 + x * rhs.getD j 0))
      cs) = magnitude cs + x * magnitude (rhs.take k) * 10 ^ i := by
  induction k with
  | zero =>
    intro cs _ _ hn
    simp [magnitude_nil, hn]
  | succ k ih =>
    intro cs hk hlen hn
    obtain ⟨i1, i2, i3⟩ := ih cs (by omega) hlen hn
    rw [List.range_succ, List.foldl_append]
    simp only [List.foldl_cons, List.foldl_nil]
    refine ⟨?_, ?_, ?_⟩
    · rw [List.length_set, i1]
    · apply NonNeg_set _ i2
      have := getD_nonneg _ i2 (i + k)
      have := getD_nonneg _ hr k
      positivity
    · rw [magnitude_set _ _ _ (by omega), i3, magnitude_take_succ rhs k (by omega), pow_add]
      ring

/-- On exact integers the two nested loops of `operator*=` leave the product
in `column_sum`. -/
theorem columnSums_outer (digits rhs : List Int) (hd : NonNeg digits) (hr : NonNeg rhs)
    (k : Nat) : k ≤ digits.length →
    ((List.range k).foldl
      (fun column_sum i =>
        (List.range rhs.length).foldl
          (fun column_sum j =>
            column_sum.set (i + j) (column_sum.getD (i + j) 0 + digits.getD i 0 * rhs.getD j 0))
          column_sum)
      (List.replicate (digits.length + rhs.length) 0)).length = digits.length + rhs.length ∧
    NonNeg ((List.range k).foldl
      (fun column_sum i =>
        (List.range rhs.length).foldl
          (fun column_sum j =>
            column_sum.set (i + j) (column_sum.getD (i + j) 0 + digits.getD i 0 * rhs.getD j 0))
          column_sum)
      (List.replicate (digits.length + rhs.length) 0)) ∧
    magnitude ((List.range k).foldl
      (fun column_sum i =>
        (List.range rhs.length).foldl
          (fun column_sum j =>
            column_sum.set (i + j) (column_sum.getD (i + j) 0 + digits.getD i 0 * rhs.getD j 0))
          column_sum)
      (List.replicate (digits.length + rhs.length) 0)) =
      magnitude (digits.take k) * magnitude rhs := by
  induction k with
  | zero =>
    intro _
    simp [magnitude_nil, magnitude_replicate_zero, NonNeg_replicate_zero]
  | succ k ih =>
    intro hk
    obtain ⟨i1, i2, i3⟩ := ih (by omega)
    rw [List.range_succ, List.foldl_append]
    simp only [List.foldl_cons, List.foldl_nil]
    obtain ⟨j1, j2, j3⟩ := columnSums_inner (digits.getD k 0) (getD_nonneg _ hd k) rhs hr k
      rhs.length _ (le_refl _) (by rw [i1]; omega) i2
    refine ⟨by rw [j1, i1], j2, ?_⟩
    rw [j3, i3, List.take_length, magnitude_take_succ digits k (by omega)]
    ring

theorem columnSums_spec (digits rhs : List Int) (hd : NonNeg digits) (hr : NonNeg rhs) :
    (columnSumsExact digits rhs).length = digits.length + rhs.length ∧
    NonNeg (columnSumsExact digits rhs) ∧
    magnitude (columnSumsExact digits rhs) = magnitude digits * magnitude rhs := by
  have h := columnSums_outer digits rhs hd hr digits.length (le_refl _)
  rw [List.take_length] at h
  exact h

theorem length_resize (v : List Int) (n : Nat) : (resize v n).length = n := by
  unfold resize
  rw [List.length_take, List.length_append, List.length_replicate]
  omega

/-- On exact integers, the carry loop of `operator*=` after `k` columns: the
digits written so far together with the carry denote the first `k` cells of
`column_sum`. -/
theorem propagate_loop (cs : List Int) (hcs : NonNeg cs) (ds0 : List Int)
    (hlen : ds0.length = cs.length) (k : Nat) : k ≤ cs.length →
    ((List.range k).foldl
      (fun (st : List Int × Int) i =>
        let curr := cs.getD i 0 + st.2
        (st.1.set i (toInt8 (curr.tmod kBase)), curr.tdiv kBase))
      (ds0, 0)).1.length = cs.length ∧
    0 ≤ ((List.range k).foldl
      (fun (st : List Int × Int) i =>
        let curr := cs.getD i 0 + st.2
        (st.1.set i (toInt8 (curr.tmod kBase)), curr.tdiv kBase))
      (ds0, 0)).2 ∧
    DigitsOk (((List.range k).foldl
      (fun (st : List Int × Int) i =>
        let curr := cs.getD i 0 + st.2
        (st.1.set i (toInt8 (curr.tmod kBase)), curr.tdiv kBase))
      (ds0, 0)).1.take k) ∧
    magnitude (((List.range k).foldl
      (fun (st : List Int × Int) i =>
        let curr := cs.getD i 0 + st.2
        (st.1.set i (toInt8 (curr.tmod kBase)), curr.tdiv kBase))
      (ds0, 0)).1.take k) +
      ((List.range k).foldl
        (fun (st : List Int × Int) i =>
          let curr := cs.getD i 0 + st.2
          (st.1.set i (toInt8 (curr.tmod kBase)), curr.tdiv kBase))
        (ds0, 0)).2 * 10 ^ k = magnitude (cs.take k) := by
  induction k with
  | zero =>
    intro _
    refine ⟨hlen, le_refl _, ?_, ?_⟩
    · intro d hd
      simp at hd
    · simp [magnitude_nil]
  | succ k ih =>
    intro hk
    obtain ⟨i1, i2, i3, i4⟩ := ih (by omega)
    rw [List.range_succ, List.foldl_append]
    simp only [List.foldl_cons, List.foldl_nil]
    generalize (List.range k).foldl
      (fun (st : List Int × Int) i =>
        let curr := cs.getD i 0 + st.2
        (st.1.set i (toInt8 (curr.tmod kBase)), curr.tdiv kBase))
      (ds0, 0) = st at i1 i2 i3 i4 ⊢
    have hc : 0 ≤ cs.getD k 0 + st.2 := by
      have := getD_nonneg cs hcs k
      omega
    have hmod : (cs.getD k 0 + st.2).tmod kBase = (cs.getD k 0 + st.2) % 10 :=
      Int.tmod_eq_emod hc (by decide)
    have hdiv : (cs.getD k 0 + st.2).tdiv kBase = (cs.getD k 0 + st.2) / 10 :=
      Int.tdiv_eq_ediv hc (by decide)
    rw [hmod, hdiv, toInt8_of_small _ (by omega) (by omega)]
    have htake := take_set_succ st.1 k ((cs.getD k 0 + st.2) % 10) (by omega)
    have hlk : (st.1.take k).length = k := by
      rw [List.length_take]
      omega
    refine ⟨?_, ?_, ?_, ?_⟩
    · rw [List.length_set, i1]
    · omega
    · rw [htake, DigitsOk_append]
      refine ⟨i3, ?_⟩
      intro d hd
      rw [List.mem_singleton] at hd
      omega
    · rw [htake, magnitude_append, hlk, magnitude_cons, magnitude_nil,
        magnitude_take_succ cs k (by omega), ← i4, pow_succ]
      have := Int.ediv_add_emod (cs.getD k 0 + st.2) 10
      linear_combination ((10 : Int) ^ k) * this

theorem propagate_spec (cs digits : List Int) (hcs : NonNeg cs)
    (hbound : magnitude cs < 10 ^ cs.length) :
    (propagateExact cs digits).length = cs.length ∧ DigitsOk (propagateExact cs digits) ∧
    magnitude (propagateExact cs digits) = magnitude cs := by
  obtain ⟨i1, i2, i3, i4⟩ := propagate_loop cs hcs (resize digits cs.length)
    (length_resize _ _) cs.length (le_refl _)
  unfold propagateExact
  generalize (List.range cs.length).foldl
    (fun (st : List Int × Int) i =>
      let curr := cs.getD i 0 + st.2
      (st.1.set i (toInt8 (curr.tmod kBase)), curr.tdiv kBase))
    (resize digits cs.length, 0) = st at i1 i2 i3 i4 ⊢
  have hfull : st.1.take cs.length = st.1 := by rw [← i1, List.take_length]
  rw [hfull] at i3 i4
  rw [List.take_length] at i4
  have hm := magnitude_nonneg _ i3
  have hp : (0 : Int) < 10 ^ cs.length := by positivity
  have hcarry : st.2 = 0 := by
    by_contra hne
    have h1 : 1 ≤ st.2 := by omega
    nlinarith
  rw [hcarry] at i4
  exact ⟨i1, i3, by omega⟩

theorem ofInt64_zero : BigInt.ofInt64 0 = ⟨true, [0]⟩ := by decide

theorem opEq_iff (a b : BigInt) : a.opEq b = true ↔ a = b := by
  obtain ⟨sa, da⟩ := a
  obtain ⟨sb, db⟩ := b
  simp [BigInt.opEq]

theorem canonical_zero : (⟨true, [0]⟩ : BigInt).Canonical := by decide

theorem val_eq_zero_iff (a : BigInt) (ha : a.Canonical) : a.val = 0 ↔ a = ⟨true, [0]⟩ := by
  constructor
  · intro h
    exact val_injective a _ ha canonical_zero (by rw [h]; rfl)
  · intro h
    rw [h]
    rfl

theorem magnitude_pos_of_val_ne_zero (a : BigInt) (ha : a.Canonical) (h : a.val ≠ 0) :
    0 < magnitude a.digits_ := by
  have hn := magnitude_nonneg _ ha.2.1
  unfold BigInt.val at h
  by_cases hs : a.is_positive_ = true
  · rw [if_pos hs] at h
    omega
  · rw [if_neg hs] at h
    omega

theorem getD_set_ne (l : List Int) (i j : Nat) (v : Int) (h : j ≠ i) :
    (l.set i v).getD j 0 = l.getD j 0 := by
  simp [List.getD_eq_getElem?_getD, List.getElem?_set_ne (Ne.symm h)]

theorem getD_of_length_le (l : List Int) (i : Nat) (h : l.length ≤ i) : l.getD i 0 = 0 := by
  simp [List.getD_eq_getElem?_getD, List.getElem?_eq_none h]

theorem getD_digit (l : List Int) (h : DigitsOk l) (i : Nat) :
    0 ≤ l.getD i 0 ∧ l.getD i 0 ≤ 9 := by
  induction l generalizing i with
  | nil => simp
  | cons x xs ih =>
    rw [DigitsOk_cons] at h
    cases i with
    | zero => simpa using h.1
    | succ i => simpa using ih h.2 i

/-! ### The `int` cells against exact integers -/

theorem wrapInt_eq (x : Int) (h0 : -2147483648 ≤ x) (h1 : x ≤ 2147483647) : wrapInt x = x := by
  unfold wrapInt
  omega

theorem wrapInt_zero : wrapInt 0 = 0 := by decide

theorem wrapInt_add (x y : Int) : wrapInt (wrapInt x + y) = wrapInt (x + y) := by
  unfold wrapInt
  omega

theorem getD_map_wrapInt (cs : List Int) (p : Nat) :
    (cs.map wrapInt).getD p 0 = wrapInt (cs.getD p 0) := by
  have h := List.getD_map cs 0 (n := p) wrapInt
  rw [wrapInt_zero] at h
  exact h

theorem columnSums_inner_map (x : Int) (rhs : List Int) (i : Nat) (l : List Nat) :
    ∀ cs : List Int,
      l.foldl (fun column_sum j =>
          column_sum.set (i + j) (wrapInt (column_sum.getD (i + j) 0 + x * rhs.getD j 0)))
        (cs.map wrapInt) =
      (l.foldl (fun column_sum j =>
          column_sum.set (i + j) (column_sum.getD (i + j) 0 + x * rhs.getD j 0)) cs).map
        wrapInt := by
  induction l with
  | nil =>
    intro cs
    rfl
  | cons j l ih =>
    intro cs
    rw [List.foldl_cons, List.foldl_cons, ← ih, getD_map_wrapInt, wrapInt_add, List.map_set]

theorem columnSums_outer_map (digits rhs : List Int) (l : List Nat) :
    ∀ cs : List Int,
      l.foldl (fun column_sum i =>
          (List.range rhs.length).foldl
            (fun column_sum j =>
              column_sum.set (i + j)
                (wrapInt (column_sum.getD (i + j) 0 + digits.getD i 0 * rhs.getD j 0)))
            column_sum)
        (cs.map wrapInt) =
      (l.foldl (fun column_sum i =>
          (List.range rhs.length).foldl
            (fun column_sum j =>
              column_sum.set (i + j)
                (column_sum.getD (i + j) 0 + digits.getD i 0 * rhs.getD j 0))
            column_sum) cs).map wrapInt := by
  induction l with
  | nil =>
    intro cs
    rfl
  | cons i l ih =>
    intro cs
    rw [List.foldl_cons, List.foldl_cons, ← ih, columnSums_inner_map]

/-- The `int` cells of `column_sum` are the exact column sums modulo `2 ^ 32`. -/
theorem columnSums_eq_map (digits rhs : List Int) :
    columnSums digits rhs = (columnSumsExact digits rhs).map wrapInt := by
  unfold columnSums columnSumsExact
  rw [← columnSums_outer_map, List.map_replicate, wrapInt_zero]

theorem getD_set_eq (l : List Int) (i : Nat) (v : Int) (h : i < l.length) :
    (l.set i v).getD i 0 = v := by
  simp [List.getD_eq_getElem?_getD, List.getElem?_set_self h]

theorem getD_set_add (l : List Int) (p k : Nat) (v : Int) (h : p < l.length) :
    (l.set p (l.getD p 0 + v)).getD k 0 = l.getD k 0 + if p = k then v else 0 := by
  by_cases hpk : p = k
  · subst hpk
    rw [getD_set_eq _ _ _ h, if_pos rfl]
  · rw [getD_set_ne _ _ _ _ (Ne.symm hpk), if_neg hpk, add_zero]

theorem ext_getD : ∀ l1 l2 : List Int, l1.length = l2.length →
    (∀ k, l1.getD k 0 = l2.getD k 0) → l1 = l2
  | [], [], _, _ => rfl
  | [], _ :: _, h, _ => by simp at h
  | _ :: _, [], h, _ => by simp at h
  | x :: xs, y :: ys, h, hk => by
    have h0 := hk 0
    simp only [List.getD_cons_zero] at h0
    have ht : xs = ys := ext_getD xs ys (by simpa using h) (fun k => by
      have := hk (k + 1)
      simpa using this)
    rw [h0, ht]

theorem inner_length (x : Int) (rhs : List Int) (i : Nat) (l : List Nat) :
    ∀ cs : List Int,
      (l.foldl (fun column_sum j =>
        column_sum.set (i + j) (column_sum.getD (i + j) 0 + x * rhs.getD j 0)) cs).length =
        cs.length := by
  induction l with
  | nil =>
    intro cs
    rfl
  | cons j l ih =>
    intro cs
    rw [List.foldl_cons, ih, List.length_set]

/-- The inner loop of `operator*=` adds to the cell `k` the one product of the
row `i` that belongs there. -/
theorem inner_getD (x : Int) (rhs : List Int) (i k : Nat) (m : Nat) :
    ∀ cs : List Int, i + m ≤ cs.length →
      ((List.range m).foldl (fun column_sum j =>
        column_sum.set (i + j) (column_sum.getD (i + j) 0 + x * rhs.getD j 0)) cs).getD k 0 =
        cs.getD k 0 + ∑ j ∈ Finset.range m, if i + j = k then x * rhs.getD j 0 else 0 := by
  induction m with
  | zero =>
    intro cs _
    simp
  | succ m ih =>
    intro cs hlen
    rw [List.range_succ, List.foldl_append]
    simp only [List.foldl_cons, List.foldl_nil]
    rw [getD_set_add _ _ _ _ (by rw [inner_length]; omega), ih cs (by omega),
      Finset.sum_range_succ]
    ring

theorem outer_length (digits rhs : List Int) (l : List Nat) :
    ∀ cs : List Int,
      (l.foldl (fun column_sum i =>
          (List.range rhs.length).foldl
            (fun column_sum j =>
              column_sum.set (i + j)
                (column_sum.getD (i + j) 0 + digits.getD i 0 * rhs.getD j 0))
            column_sum) cs).length = cs.length := by
  induction l with
  | nil =>
    intro cs
    rfl
  | cons i l ih =>
    intro cs
    rw [List.foldl_cons, ih, inner_length]

theorem outer_getD (digits rhs : List Int) (k : Nat) (n : Nat) :
    ∀ cs : List Int, n + rhs.length ≤ cs.length + 1 →
      ((List.range n).foldl (fun column_sum i =>
          (List.range rhs.length).foldl
            (fun column_sum j =>
              column_sum.set (i + j)
                (column_sum.getD (i + j) 0 + digits.getD i 0 * rhs.getD j 0))
            column_sum) cs).getD k 0 =
        cs.getD k 0 + ∑ i ∈ Finset.range n, ∑ j ∈ Finset.range rhs.length,
          if i + j = k then digits.getD i 0 * rhs.getD j 0 else 0 := by
  induction n with
  | zero =>
    intro cs _
    simp
  | succ n ih =>
    intro cs hlen
    rw [List.range_succ, List.foldl_append]
    simp only [List.foldl_cons, List.foldl_nil]
    rw [inner_getD _ _ _ _ _ _ (by rw [outer_length]; omega), ih cs (by omega),
      Finset.sum_range_succ]
    ring

theorem getD_replicate_zero (n k : Nat) : (List.replicate n (0 : Int)).getD k 0 = 0 := by
  by_cases h : k < n <;> simp [List.getD_eq_getElem?_getD, List.getElem?_replicate, h]

theorem columnSumsExact_length (digits rhs : List Int) :
    (columnSumsExact digits rhs).length = digits.length + rhs.length := by
  unfold columnSumsExact
  rw [outer_length, List.length_replicate]

/-- Every cell of the exact column sums is the sum of the products that belong
to it. -/
theorem columnSumsExact_getD (digits rhs : List Int) (k : Nat) :
    (columnSumsExact digits rhs).getD k 0 = cellSum digits rhs k := by
  unfold columnSumsExact cellSum
  rw [outer_getD digits rhs k digits.length _ (by rw [List.length_replicate]; omega),
    getD_replicate_zero, zero_add]

theorem cellSum_comm (a b : List Int) (k : Nat) : cellSum a b k = cellSum b a k := by
  unfold cellSum
  rw [Finset.sum_comm]
  apply Finset.sum_congr rfl
  intro j _
  apply Finset.sum_congr rfl
  intro i _
  rw [add_comm i j, mul_comm]

theorem columnSumsExact_comm (a b : List Int) : columnSumsExact a b = columnSumsExact b a := by
  apply ext_getD
  · rw [columnSumsExact_length, columnSumsExact_length, add_comm]
  · intro k
    rw [columnSumsExact_getD, columnSumsExact_getD, cellSum_comm]

/-- The cells of `column_sum` do not depend on the order of the operands. -/
theorem columnSums_comm (a b : List Int) : columnSums a b = columnSums b a := by
  rw [columnSums_eq_map, columnSums_eq_map, columnSumsExact_comm]

theorem single_term (i k m : Nat) (g : Nat → Int) :
    (∑ j ∈ Finset.range m, if i + j = k then g j else 0) =
      if i ≤ k ∧ k - i < m then g (k - i) else 0 := by
  induction m with
  | zero => simp
  | succ m ih =>
    rw [Finset.sum_range_succ, ih]
    by_cases h1 : i + m = k
    · have e : k - i = m := by omega
      have c1 : ¬ (i ≤ k ∧ k - i < m) := by omega
      have c2 : i ≤ k ∧ k - i < m + 1 := by omega
      rw [if_neg c1, if_pos h1, if_pos c2, e, zero_add]
    · rw [if_neg h1, add_zero]
      by_cases c1 : i ≤ k ∧ k - i < m
      · have c2 : i ≤ k ∧ k - i < m + 1 := by omega
        rw [if_pos c1, if_pos c2]
      · have c2 : ¬ (i ≤ k ∧ k - i < m + 1) := by omega
        rw [if_neg c1, if_neg c2]

theorem cellSum_bound (a b : List Int) (ha : DigitsOk a) (hb : DigitsOk b) (k : Nat) :
    0 ≤ cellSum a b k ∧ cellSum a b k ≤ 81 * (a.length : Int) := by
  have hterm : ∀ i ∈ Finset.range a.length,
      0 ≤ (∑ j ∈ Finset.range b.length, if i + j = k then a.getD i 0 * b.getD j 0 else 0) ∧
      (∑ j ∈ Finset.range b.length, if i + j = k then a.getD i 0 * b.getD j 0 else 0) ≤ 81 := by
    intro i _
    rw [single_term i k b.length (fun j => a.getD i 0 * b.getD j 0)]
    obtain ⟨a0, a9⟩ := getD_digit a ha i
    obtain ⟨b0, b9⟩ := getD_digit b hb (k - i)
    split_ifs
    · constructor
      · positivity
      · nlinarith
    · exact ⟨le_refl _, by norm_num⟩
  unfold cellSum
  constructor
  · exact Finset.sum_nonneg (fun i hi => (hterm i hi).1)
  · have h := Finset.sum_le_sum (fun i hi => (hterm i hi).2)
    rw [Finset.sum_const, Finset.card_range] at h
    simpa [mul_comm] using h

theorem map_wrapInt_id (l : List Int) (h : ∀ k, -2147483648 ≤ l.getD k 0 ∧ l.getD k 0 ≤ 2147483647) :
    l.map wrapInt = l := by
  induction l with
  | nil => rfl
  | cons x xs ih =>
    have h0 := h 0
    simp only [List.getD_cons_zero] at h0
    rw [List.map_cons, wrapInt_eq x h0.1 h0.2, ih (fun k => by
      have := h (k + 1)
      simpa using this)]

/-- No cell of `column_sum` overflows while one of the operands has at most
`26512143` digits (`81 * 26512143 < 2 ^ 31`): the cells are the exact column
sums, between `0` and `81` times the digit count of either operand. -/
theorem columnSums_exact (a b : List Int) (ha : DigitsOk a) (hb : DigitsOk b)
    (hlen : a.length ≤ 26512143 ∨ b.length ≤ 26512143) :
    columnSums a b = columnSumsExact a b ∧
    ∀ k, 0 ≤ (columnSumsExact a b).getD k 0 ∧
      (columnSumsExact a b).getD k 0 ≤ 81 * (a.length : Int) ∧
      (columnSumsExact a b).getD k 0 ≤ 81 * (b.length : Int) := by
  have hk : ∀ k, 0 ≤ (columnSumsExact a b).getD k 0 ∧
      (columnSumsExact a b).getD k 0 ≤ 81 * (a.length : Int) ∧
      (columnSumsExact a b).getD k 0 ≤ 81 * (b.length : Int) := by
    intro k
    have h1 := cellSum_bound a b ha hb k
    have h2 := cellSum_bound b a hb ha k
    rw [← cellSum_comm a b k] at h2
    rw [columnSumsExact_getD]
    exact ⟨h1.1, h1.2, h2.2⟩
  refine ⟨?_, hk⟩
  rw [columnSums_eq_map]
  apply map_wrapInt_id
  intro k
  obtain ⟨h0, h1, h2⟩ := hk k
  rcases hlen with h | h
  · have : (a.length : Int) ≤ 26512143 := by exact_mod_cast h
    omega
  · have : (b.length : Int) ≤ 26512143 := by exact_mod_cast h
    omega

/-- The carry pass does not overflow on cells between `0` and `81 * M` with
`90 * M` within the range of `int`. -/
theorem propagate_loop_exact (cs : List Int) (M : Int)
    (hcs : ∀ k, 0 ≤ cs.getD k 0 ∧ cs.getD k 0 ≤ 81 * M) (hM : 90 * M ≤ 2147483647)
    (ds0 : List Int) (k : Nat) :
    ∃ s c,
      (List.range k).foldl
        (fun (st : List Int × Int) i =>
          let curr := wrapInt (cs.getD i 0 + st.2)
          (st.1.set i (toInt8 (curr.tmod kBase)), curr.tdiv kBase))
        (ds0, 0) = (s, c) ∧
      (List.range k).foldl
        (fun (st : List Int × Int) i =>
          let curr := cs.getD i 0 + st.2
          (st.1.set i (toInt8 (curr.tmod kBase)), curr.tdiv kBase))
        (ds0, 0) = (s, c) ∧
      0 ≤ c ∧ c ≤ 9 * M := by
  have hM0 : 0 ≤ M := by
    have := hcs 0
    omega
  induction k with
  | zero => exact ⟨ds0, 0, rfl, rfl, le_refl _, by omega⟩
  | succ k ih =>
    obtain ⟨s, c, e1, e2, c0, c9⟩ := ih
    obtain ⟨h0, h1⟩ := hcs k
    rw [List.range_succ, List.foldl_append, List.foldl_append, e1, e2]
    simp only [List.foldl_cons, List.foldl_nil]
    rw [wrapInt_eq _ (by omega) (by omega)]
    refine ⟨_, _, rfl, rfl, ?_, ?_⟩
    · rw [Int.tdiv_eq_ediv (by omega) (by decide)]
      unfold kBase
      omega
    · rw [Int.tdiv_eq_ediv (by omega) (by decide)]
      unfold kBase
      omega

theorem propagate_exact (cs : List Int) (M : Int)
    (hcs : ∀ k, 0 ≤ cs.getD k 0 ∧ cs.getD k 0 ≤ 81 * M) (hM : 90 * M ≤ 2147483647)
    (digits : List Int) : propagate cs digits = propagateExact cs digits := by
  obtain ⟨s, c, e1, e2, _⟩ := propagate_loop_exact cs M hcs hM (resize digits cs.length) cs.length
  unfold propagate propagateExact
  rw [e1, e2]

/-- The two loops of `operator*=` on decimal digits, one operand having at
most `23860929` digits: they compute what they compute on exact integers. -/
theorem multiply_exact (a b : List Int) (ha : DigitsOk a) (hb : DigitsOk b)
    (hlen : a.length ≤ 23860929 ∨ b.length ≤ 23860929) (digits : List Int) :
    propagate (columnSums a b) digits = propagateExact (columnSumsExact a b) digits := by
  obtain ⟨e, hk⟩ := columnSums_exact a b ha hb (by omega)
  rw [e]
  rcases hlen with h | h
  · have hh : (a.length : Int) ≤ 23860929 := by exact_mod_cast h
    exact propagate_exact _ a.length (fun k => ⟨(hk k).1, (hk k).2.1⟩) (by omega) digits
  · have hh : (b.length : Int) ≤ 23860929 := by exact_mod_cast h
    exact propagate_exact _ b.length (fun k => ⟨(hk k).1, (hk k).2.2⟩) (by omega) digits

/-- The result of `operator*=` on two canonical non-zero operands, one of them
with at most `23860929` digits. -/
theorem opStarAssign_nonzero (a b : BigInt) (ha : a.Canonical) (hb : b.Canonical)
    (ha0 : a.val ≠ 0) (hb0 : b.val ≠ 0)
    (hlen : a.digits_.length ≤ 23860929 ∨ b.digits_.length ≤ 23860929) :
    a.opStarAssign b = ⟨a.is_positive_ == b.is_positive_,
      RemoveZeros (propagate (columnSums a.digits_ b.digits_) a.digits_)⟩ ∧
    CanonDigits (RemoveZeros (propagate (columnSums a.digits_ b.digits_) a.digits_)) ∧
    magnitude (RemoveZeros (propagate (columnSums a.digits_ b.digits_) a.digits_)) =
      magnitude a.digits_ * magnitude b.digits_ ∧
    0 < magnitude a.digits_ * magnitude b.digits_ := by
  have hane : a.opEq (BigInt.ofInt64 0) = false := by
    rw [Bool.eq_false_iff, Ne, opEq_iff, ofInt64_zero, ← val_eq_zero_iff a ha]
    exact ha0
  have hbne : b.opEq (BigInt.ofInt64 0) = false := by
    rw [Bool.eq_false_iff, Ne, opEq_iff, ofInt64_zero, ← val_eq_zero_iff b hb]
    exact hb0
  have pa := magnitude_pos_of_val_ne_zero a ha ha0
  have pb := magnitude_pos_of_val_ne_zero b hb hb0
  have la := magnitude_lt_pow _ ha.2.1
  have lb := magnitude_lt_pow _ hb.2.1
  have hunfold : a.opStarAssign b = ⟨a.is_positive_ == b.is_positive_,
      RemoveZeros (propagate (columnSums a.digits_ b.digits_) a.digits_)⟩ := by
    unfold BigInt.opStarAssign
    rw [hane, hbne]
    rfl
  refine ⟨hunfold, ?_⟩
  rw [multiply_exact a.digits_ b.digits_ ha.2.1 hb.2.1 hlen a.digits_]
  obtain ⟨c1, c2, c3⟩ := columnSums_spec a.digits_ b.digits_
    (NonNeg_of_DigitsOk _ ha.2.1) (NonNeg_of_DigitsOk _ hb.2.1)
  have hbound : magnitude (columnSumsExact a.digits_ b.digits_) <
      10 ^ (columnSumsExact a.digits_ b.digits_).length := by
    rw [c1, c3, pow_add]
    exact mul_lt_mul'' la lb (le_of_lt pa) (le_of_lt pb)
  obtain ⟨p1, p2, p3⟩ := propagate_spec (columnSumsExact a.digits_ b.digits_) a.digits_ c2 hbound
  obtain ⟨r1, r2, r3, r4⟩ :=
    RemoveZeros_spec (propagateExact (columnSumsExact a.digits_ b.digits_) a.digits_)
  have hne : propagateExact (columnSumsExact a.digits_ b.digits_) a.digits_ ≠ [] := by
    intro h0
    have hl : (propagateExact (columnSumsExact a.digits_ b.digits_) a.digits_).length = 0 := by
      rw [h0]
      rfl
    have hal : 0 < a.digits_.length := List.length_pos.mpr ha.1
    rw [p1, c1] at hl
    omega
  refine ⟨⟨r3 hne, r2 p2, r4⟩, ?_, mul_pos pa pb⟩
  rw [r1, p3, c3]

/-- A zero operand makes `operator*` return the single digit `0`, non-negative. -/
theorem opStar_zero (a b : BigInt) (ha : a.Canonical) (hb : b.Canonical)
    (h : a.val = 0 ∨ b.val = 0) : a.opStar b = ⟨true, [0]⟩ := by
  have hc : (a.opEq (BigInt.ofInt64 0) || b.opEq (BigInt.ofInt64 0)) = true := by
    rw [Bool.or_eq_true, opEq_iff, opEq_iff, ofInt64_zero]
    rcases h with h | h
    · exact Or.inl ((val_eq_zero_iff a ha).mp h)
    · exact Or.inr ((val_eq_zero_iff b hb).mp h)
  unfold BigInt.opStar BigInt.opStarAssign
  rw [if_pos hc, ofInt64_zero]

/-- The product of two canonical values, one of them with at most `23860929`
digits, is canonical and denotes the product. -/
theorem opStar_spec (a b : BigInt) (ha : a.Canonical) (hb : b.Canonical)
    (hlen : a.digits_.length ≤ 23860929 ∨ b.digits_.length ≤ 23860929) :
    (a.opStar b).Canonical ∧ (a.opStar b).val = a.val * b.val ∧
    ((a.opStar b).is_positive_ = true ↔
      (a.is_positive_ = b.is_positive_ ∨ a.val = 0 ∨ b.val = 0)) := by
  by_cases hz : a.val = 0 ∨ b.val = 0
  · rw [opStar_zero a b ha hb hz]
    refine ⟨canonical_zero, ?_, ?_⟩
    · rcases hz with h | h <;> rw [h] <;> simp [BigInt.val, magnitude]
    · simp [hz]
  · have ha0 : a.val ≠ 0 := fun h => hz (Or.inl h)
    have hb0 : b.val ≠ 0 := fun h => hz (Or.inr h)
    obtain ⟨e, hcd, hm, hpos⟩ := opStarAssign_nonzero a b ha hb ha0 hb0 hlen
    unfold BigInt.opStar
    rw [e]
    refine ⟨?_, ?_, ?_⟩
    · rw [Canonical_iff]
      refine ⟨hcd, ?_⟩
      intro h0
      simp only at h0
      rw [h0] at hm
      simp only [magnitude_cons, magnitude_nil] at hm
      omega
    · simp only [BigInt.val]
      rw [hm]
      cases a.is_positive_ <;> cases b.is_positive_ <;> simp
    · simp only [beq_iff_eq]
      constructor
      · intro h
        exact Or.inl h
      · rintro (h | h | h)
        · exact h
        · exact absurd h ha0
        · exact absurd h hb0

/-- The carry loop of `operator*=` overwrites every digit below its counter:
what `digits_` held before the loop does not reach the result. -/
theorem propagate_loop_indep (cs d1 d2 : List Int) (hl : d1.length = d2.length) (k : Nat) :
    k ≤ d1.length →
    ∃ s1 s2 c,
      (List.range k).foldl
        (fun (st : List Int × Int) i =>
          let curr := wrapInt (cs.getD i 0 + st.2)
          (st.1.set i (toInt8 (curr.tmod kBase)), curr.tdiv kBase))
        (d1, 0) = (s1, c) ∧
      (List.range k).foldl
        (fun (st : List Int × Int) i =>
          let curr := wrapInt (cs.getD i 0 + st.2)
          (st.1.set i (toInt8 (curr.tmod kBase)), curr.tdiv kBase))
        (d2, 0) = (s2, c) ∧
      s1.length = d1.length ∧ s2.length = d1.length ∧ s1.take k = s2.take k := by
  induction k with
  | zero =>
    intro _
    exact ⟨d1, d2, 0, rfl, rfl, rfl, hl.symm, by simp⟩
  | succ k ih =>
    intro hk
    obtain ⟨s1, s2, c, e1, e2, l1, l2, ht⟩ := ih (by omega)
    rw [List.range_succ, List.foldl_append, List.foldl_append, e1, e2]
    simp only [List.foldl_cons, List.foldl_nil]
    refine ⟨_, _, _, rfl, rfl, ?_, ?_, ?_⟩
    · rw [List.length_set, l1]
    · rw [List.length_set, l2]
    · rw [take_set_succ _ _ _ (by omega), take_set_succ _ _ _ (by omega), ht]

theorem propagate_indep (cs d1 d2 : List Int) : propagate cs d1 = propagate cs d2 := by
  obtain ⟨s1, s2, c, e1, e2, l1, l2, ht⟩ :=
    propagate_loop_indep cs (resize d1 cs.length) (resize d2 cs.length)
      (by rw [length_resize, length_resize]) cs.length (by rw [length_resize])
  unfold propagate
  rw [e1, e2]
  rw [length_resize] at l1 l2
  have t1 : s1.take cs.length = s1 := List.take_of_length_le (by omega)
  have t2 : s2.take cs.length = s2 := List.take_of_length_le (by omega)
  show s1 = s2
  rw [← t1, ← t2, ht]

/-- The result of `operator*` does not depend on the order of the operands,
whatever they are: the column sums are symmetric, also after wrap-around, the
carry loop overwrites every digit, and the zero guard and the sign are
symmetric. -/
theorem opStar_comm (a b : BigInt) : a.opStar b = b.opStar a := by
  have hs : (a.is_positive_ == b.is_positive_) = (b.is_positive_ == a.is_positive_) := by
    cases a.is_positive_ <;> cases b.is_positive_ <;> rfl
  unfold BigInt.opStar BigInt.opStarAssign
  simp only []
  rw [Bool.or_comm (a.opEq (BigInt.ofInt64 0)) (b.opEq (BigInt.ofInt64 0)),
    columnSums_comm a.digits_ b.digits_,
    propagate_indep (columnSums b.digits_ a.digits_) a.digits_ b.digits_, hs]

/-- C8: for canonical `a` and `b`, one of them with at most `23860929` digits,
`operator*` returns a canonical value with `val (a * b) = val a * val b`; the
result is non-negative exactly when the operand signs match or an operand is
zero, and a zero operand gives the single digit `0` with non-negative sign. -/
theorem opStar_correct (a b : BigInt) (ha : a.Canonical) (hb : b.Canonical)
    (hlen : a.digits_.length ≤ 23860929 ∨ b.digits_.length ≤ 23860929) :
    (a.opStar b).Canonical ∧ (a.opStar b).val = a.val * b.val ∧
    ((a.opStar b).is_positive_ = true ↔
      (a.is_positive_ = b.is_positive_ ∨ a.val = 0 ∨ b.val = 0)) ∧
    (a.val = 0 ∨ b.val = 0 → a.opStar b = ⟨true, [0]⟩) := by
  obtain ⟨h1, h2, h3⟩ := opStar_spec a b ha hb hlen
  exact ⟨h1, h2, h3, opStar_zero a b ha hb⟩

/-- C8 at `-123` and `45`: the product is canonical, negative, and denotes
`-5535`; it is `BigInt(-5535)`. At `-123` and `0` the product is the single
digit `0`, non-negative. -/
theorem opStar_correct_witness :
    (BigInt.ofInt64 (-123)).Canonical ∧ (BigInt.ofInt64 45).Canonical ∧
    ((BigInt.ofInt64 (-123)).digits_.length ≤ 23860929 ∨
      (BigInt.ofInt64 45).digits_.length ≤ 23860929) ∧
    (((BigInt.ofInt64 (-123)).opStar (BigInt.ofInt64 45)).Canonical ∧
      ((BigInt.ofInt64 (-123)).opStar (BigInt.ofInt64 45)).val =
        (BigInt.ofInt64 (-123)).val * (BigInt.ofInt64 45).val) ∧
    (BigInt.ofInt64 (-123)).opStar (BigInt.ofInt64 45) = BigInt.ofInt64 (-5535) ∧
    (BigInt.ofInt64 (-123)).opStar (BigInt.ofInt64 0) = ⟨true, [0]⟩ :=
  ⟨by decide, by decide, by decide,
    ⟨(opStar_correct (BigInt.ofInt64 (-123)) (BigInt.ofInt64 45) (by decide) (by decide)
        (by decide)).1,
      (opStar_correct (BigInt.ofInt64 (-123)) (BigInt.ofInt64 45) (by decide) (by decide)
        (by decide)).2.1⟩,
    by decide,
    (opStar_correct (BigInt.ofInt64 (-123)) (BigInt.ofInt64 0) (by decide) (by decide)
      (by decide)).2.2.2 (Or.inr (by decide))⟩

/-! ### Two operands of `23860930` nines

The first `n` cells of `nines * nines` are `81, 162, ..`, the carry into
column `k` is `9 * k - 1` and `curr` is `90 * k + 80`. At `k = 23860929` this
is `2147483690`, above `INT_MAX = 2147483647`. -/

theorem getD_replicate_nine (n k : Nat) :
    (List.replicate n (9 : Int)).getD k 0 = if k < n then 9 else 0 := by
  by_cases h : k < n <;> simp [List.getD_eq_getElem?_getD, List.getElem?_replicate, h]

theorem sum_ite_le (n k : Nat) :
    (∑ i ∈ Finset.range n, if i ≤ k then (81 : Int) else 0) = 81 * ((min n (k + 1) : Nat) : Int) := by
  induction n with
  | zero => simp
  | succ n ih =>
    rw [Finset.sum_range_succ, ih]
    by_cases h : n ≤ k
    · rw [if_pos h, min_eq_left (by omega), min_eq_left (by omega)]
      push_cast
      ring
    · rw [if_neg h, min_eq_right (by omega), min_eq_right (by omega), add_zero]

theorem cellSum_nines (n k : Nat) (hk : k < n) :
    cellSum (List.replicate n 9) (List.replicate n 9) k = 81 * ((k : Int) + 1) := by
  unfold cellSum
  rw [List.length_replicate]
  have h : ∀ i ∈ Finset.range n,
      (∑ j ∈ Finset.range n,
        if i + j = k then
          (List.replicate n (9 : Int)).getD i 0 * (List.replicate n (9 : Int)).getD j 0
        else 0) = if i ≤ k then (81 : Int) else 0 := by
    intro i hi
    rw [Finset.mem_range] at hi
    rw [single_term i k n
      (fun j => (List.replicate n (9 : Int)).getD i 0 * (List.replicate n (9 : Int)).getD j 0)]
    by_cases c : i ≤ k
    · rw [if_pos ⟨c, by omega⟩, if_pos c, getD_replicate_nine, getD_replicate_nine,
        if_pos hi, if_pos (by omega)]
      rfl
    · rw [if_neg (fun h => c h.1), if_neg c]
  rw [Finset.sum_congr rfl h, sum_ite_le, min_eq_right (by omega)]
  push_cast
  ring

/-- The carry loop on cells `81 * (j + 1)`: the carry into column `k` is
`9 * k - 1`, for `k` up to `23860929`, with no overflow before that column. -/
theorem propagate_loop_nines (cs ds0 : List Int) (n : Nat)
    (hcs : ∀ j, j < n → cs.getD j 0 = 81 * ((j : Int) + 1)) (k : Nat) :
    k ≤ n → k ≤ 23860929 →
    ∃ s c,
      (List.range k).foldl
        (fun (st : List Int × Int) i =>
          let curr := wrapInt (cs.getD i 0 + st.2)
          (st.1.set i (toInt8 (curr.tmod kBase)), curr.tdiv kBase))
        (ds0, 0) = (s, c) ∧
      s.length = ds0.length ∧ (k = 0 → c = 0) ∧ (0 < k → c = 9 * (k : Int) - 1) := by
  induction k with
  | zero =>
    intro _ _
    exact ⟨ds0, 0, rfl, rfl, fun _ => rfl, fun h => absurd h (by omega)⟩
  | succ k ih =>
    intro h1 h2
    obtain ⟨s, c, e, l, c0, c1⟩ := ih (by omega) (by omega)
    rw [List.range_succ, List.foldl_append, e]
    simp only [List.foldl_cons, List.foldl_nil]
    have hc : c = 0 ∧ k = 0 ∨ c = 9 * (k : Int) - 1 ∧ 0 < k := by
      rcases Nat.eq_zero_or_pos k with h | h
      · exact Or.inl ⟨c0 h, h⟩
      · exact Or.inr ⟨c1 h, h⟩
    have hcell := hcs k (by omega)
    rw [wrapInt_eq _ (by omega) (by omega)]
    refine ⟨_, _, rfl, by rw [List.length_set, l], fun h => absurd h (by omega), fun _ => ?_⟩
    rw [Int.tdiv_eq_ediv (by omega) (by decide)]
    unfold kBase
    push_cast
    omega

/-- A digit written by the carry loop is not touched by the later columns. -/
theorem propagate_loop_keeps (cs ds0 : List Int) (p k : Nat) (hpk : p + 1 ≤ k) :
    ((List.range k).foldl
      (fun (st : List Int × Int) i =>
        let curr := wrapInt (cs.getD i 0 + st.2)
        (st.1.set i (toInt8 (curr.tmod kBase)), curr.tdiv kBase))
      (ds0, 0)).1.getD p 0 =
    ((List.range (p + 1)).foldl
      (fun (st : List Int × Int) i =>
        let curr := wrapInt (cs.getD i 0 + st.2)
        (st.1.set i (toInt8 (curr.tmod kBase)), curr.tdiv kBase))
      (ds0, 0)).1.getD p 0 := by
  induction k, hpk using Nat.le_induction with
  | base => rfl
  | succ k hk ih =>
    rw [List.range_succ, List.foldl_append]
    simp only [List.foldl_cons, List.foldl_nil]
    rw [getD_set_ne _ _ _ _ (by omega), ih]

/-- The member `RemoveZeros` pops zeros only. -/
theorem RemoveZeros_loop_mem (v : Int) (hv : v ≠ 0) (fuel : Nat) (ds : List Int)
    (h : v ∈ ds) : v ∈ RemoveZeros.loop fuel ds := by
  induction fuel generalizing ds with
  | zero => exact h
  | succ fuel ih =>
    unfold RemoveZeros.loop
    split_ifs with hc
    · apply ih
      rw [Bool.and_eq_true] at hc
      have hlast : ds.getLast? = some 0 := by simpa using hc.2
      have hsplit := List.dropLast_append_getLast? 0 hlast
      rw [← hsplit, List.mem_append] at h
      rcases h with h | h
      · exact h
      · simp at h
        exact absurd h hv
    · exact h

theorem RemoveZeros_mem (v : Int) (hv : v ≠ 0) (ds : List Int) (h : v ∈ ds) :
    v ∈ RemoveZeros ds :=
  RemoveZeros_loop_mem v hv ds.length ds h

theorem mem_of_getD (l : List Int) (p : Nat) (v : Int) (hv : v ≠ 0) (h : l.getD p 0 = v) :
    v ∈ l := by
  by_cases hp : p < l.length
  · rw [List.getD_eq_getElem _ _ hp] at h
    rw [← h]
    exact List.getElem_mem hp
  · rw [getD_of_length_le l p (by omega)] at h
    exact absurd h.symm hv

theorem canonical_nines (n : Nat) (hn : 0 < n) :
    (⟨true, List.replicate n 9⟩ : BigInt).Canonical := by
  obtain ⟨m, rfl⟩ : ∃ m, n = m + 1 := ⟨n - 1, by omega⟩
  refine ⟨by simp [List.replicate_succ], ?_, ?_, ?_⟩
  · intro d hd
    rw [List.mem_replicate] at hd
    rw [hd.2]
    exact ⟨by norm_num, by norm_num⟩
  · intro _ hl
    have hl2 : (List.replicate (m + 1) (9 : Int)).getLast? = some 0 := hl
    have hsplit := List.dropLast_append_getLast? 0 hl2
    have hmem : (0 : Int) ∈ List.replicate (m + 1) (9 : Int) := by
      rw [← hsplit]
      simp
    rw [List.mem_replicate] at hmem
    exact absurd hmem.2 (by norm_num)
  · intro h
    simp [List.replicate_succ] at h

/-- The square of `23860930` nines: column `23860929` holds
`curr = 2147483690`, which an `int` stores as `-2147483606`, and the digit
written is `-6`. -/
theorem opStar_nines (n : Nat) (hn : n = 23860930) :
    (-6 : Int) ∈
      ((⟨true, List.replicate n 9⟩ : BigInt).opStar ⟨true, List.replicate n 9⟩).digits_ := by
  have hne : (⟨true, List.replicate n 9⟩ : BigInt).opEq (BigInt.ofInt64 0) = false := by
    rw [Bool.eq_false_iff, Ne, opEq_iff, ofInt64_zero]
    intro h
    have h2 := congrArg (fun x : BigInt => x.digits_.getD 0 0) h
    simp only [getD_replicate_nine] at h2
    rw [if_pos (by omega)] at h2
    simp at h2
  have hunfold : (⟨true, List.replicate n 9⟩ : BigInt).opStar ⟨true, List.replicate n 9⟩ =
      ⟨true, RemoveZeros (propagate (columnSums (List.replicate n 9) (List.replicate n 9))
        (List.replicate n 9))⟩ := by
    unfold BigInt.opStar BigInt.opStarAssign
    rw [hne]
    rfl
  rw [hunfold]
  have hok : DigitsOk (List.replicate n (9 : Int)) := (canonical_nines n (by omega)).2.1
  obtain ⟨ecs, _⟩ := columnSums_exact (List.replicate n 9) (List.replicate n 9) hok hok
    (Or.inl (by rw [List.length_replicate]; omega))
  have hcell : ∀ j, j < n →
      (columnSums (List.replicate n 9) (List.replicate n 9)).getD j 0 = 81 * ((j : Int) + 1) := by
    intro j hj
    rw [ecs, columnSumsExact_getD, cellSum_nines n j hj]
  have hlen : (columnSums (List.replicate n 9) (List.replicate n 9)).length = n + n := by
    rw [ecs, columnSumsExact_length, List.length_replicate]
  apply RemoveZeros_mem _ (by decide)
  apply mem_of_getD _ (n - 1) _ (by decide)
  unfold propagate
  rw [hlen, propagate_loop_keeps _ _ (n - 1) (n + n) (by omega)]
  obtain ⟨s, c, e, l, _, c1⟩ := propagate_loop_nines
    (columnSums (List.replicate n 9) (List.replicate n 9))
    (resize (List.replicate n 9) (n + n)) n hcell (n - 1) (by omega) (by omega)
  rw [List.range_succ, List.foldl_append, e]
  simp only [List.foldl_cons, List.foldl_nil]
  rw [getD_set_eq _ _ _ (by rw [l, length_resize]; omega), hcell (n - 1) (by omega),
    c1 (by omega)]
  have hv : (81 : Int) * (((n - 1 : Nat) : Int) + 1) + (9 * ((n - 1 : Nat) : Int) - 1) =
      2147483690 := by
    omega
  rw [hv]
  decide

/-- C8 as stated does not hold: for the canonical value of `23860930` nines
multiplied by itself, `curr` of column `23860929` is `2147483690`, above
`INT_MAX`; stored in an `int` it is `-2147483606`, the digit written is `-6`,
and the product is not canonical. -/
theorem opStar_not_canonical_at_23860930_nines :
    (⟨true, List.replicate 23860930 9⟩ : BigInt).Canonical ∧
    (-6 : Int) ∈ ((⟨true, List.replicate 23860930 9⟩ : BigInt).opStar
      ⟨true, List.replicate 23860930 9⟩).digits_ ∧
    ¬ ((⟨true, List.replicate 23860930 9⟩ : BigInt).opStar
      ⟨true, List.replicate 23860930 9⟩).Canonical :=
  ⟨canonical_nines 23860930 (by norm_num), opStar_nines 23860930 rfl, fun h =>
    absurd (h.2.1 (-6) (opStar_nines 23860930 rfl)).1 (by norm_num)⟩

/-! ## Fuel -/

theorem opAssign_fuel_succ (fuel : Nat) :
    (∀ a b r, BigInt.opPlusAssign fuel a b = some r →
      BigInt.opPlusAssign (fuel + 1) a b = some r) ∧
    (∀ a b r, BigInt.opMinusAssign fuel a b = some r →
      BigInt.opMinusAssign (fuel + 1) a b = some r) := by
  induction fuel with
  | zero =>
    constructor
    · intro a b r h
      simp [BigInt.opPlusAssign] at h
    · intro a b r h
      simp [BigInt.opMinusAssign] at h
  | succ fuel ih =>
    obtain ⟨ihp, ihm⟩ := ih
    constructor
    · intro a b r h
      rw [BigInt.opPlusAssign] at h ⊢
      split_ifs at h ⊢ with h1 h2
      · exact ihm _ _ _ h
      · exact ihm _ _ _ h
      · exact h
    · intro a b r h
      rw [BigInt.opMinusAssign] at h ⊢
      split_ifs at h ⊢ with h1 h2 h3 h4
      · rw [Option.map_eq_some'] at h ⊢
        obtain ⟨x, hx, hr⟩ := h
        exact ⟨x, ihp _ _ _ hx, hr⟩
      · exact ihp _ _ _ h
      · exact ihm _ _ _ h
      · rw [Option.map_eq_some'] at h ⊢
        obtain ⟨x, hx, hr⟩ := h
        exact ⟨x, ihm _ _ _ hx, hr⟩
      · exact h

theorem opPlus_fuel_succ (fuel : Nat) (a b r : BigInt)
    (h : BigInt.opPlus fuel a b = some r) : BigInt.opPlus (fuel + 1) a b = some r :=
  (opAssign_fuel_succ fuel).1 a b r h

theorem search_fuel_succ (rhs temp : BigInt) (fuel : Nat) : ∀ (curr c : Int),
    Divide.search rhs temp fuel curr = some c →
    Divide.search rhs temp (fuel + 1) curr = some c := by
  induction fuel with
  | zero =>
    intro curr c h
    simp [Divide.search] at h
  | succ fuel ih =>
    intro curr c h
    rw [Divide.search] at h ⊢
    split_ifs at h ⊢ with h1
    · exact ih _ _ h
    · exact h

theorem skip_fuel_succ (fuel : Nat) (digits : List Int) (rhs : BigInt) (i : Nat) :
    ∀ (temp : BigInt) (x : BigInt × Nat),
    Divide.skip fuel digits rhs i temp = some x →
    Divide.skip (fuel + 1) digits rhs i temp = some x := by
  induction i with
  | zero =>
    intro temp x h
    simp [Divide.skip] at h
  | succ i ih =>
    intro temp x h
    rw [Divide.skip] at h ⊢
    simp only [Option.bind_eq_bind, Option.bind_eq_some] at h ⊢
    obtain ⟨d, hd, probe, hprobe, h⟩ := h
    refine ⟨d, hd, probe, opPlus_fuel_succ _ _ _ _ hprobe, ?_⟩
    split_ifs at h ⊢ with h1
    · simp only [Option.bind_eq_some] at h ⊢
      obtain ⟨t, ht, h⟩ := h
      exact ⟨t, (opAssign_fuel_succ fuel).1 _ _ _ ht, ih _ _ h⟩
    · exact h

theorem main_fuel_succ (fuel : Nat) (digits : List Int) (rhs : BigInt) (is_module : Bool)
    (i : Nat) : ∀ (temp : BigInt) (column_sum : List Int) (x : BigInt × List Int),
    Divide.main fuel digits rhs is_module i temp column_sum = some x →
    Divide.main (fuel + 1) digits rhs is_module i temp column_sum = some x := by
  induction i with
  | zero =>
    intro temp column_sum x h
    rw [Divide.main] at h ⊢
    exact h
  | succ i ih =>
    intro temp column_sum x h
    rw [Divide.main] at h ⊢
    simp only [Option.bind_eq_bind, Option.bind_eq_some] at h ⊢
    obtain ⟨d, hd, t, ht, curr, hcurr, t2, ht2, h⟩ := h
    exact ⟨d, hd, t, opPlus_fuel_succ _ _ _ _ ht, curr, search_fuel_succ _ _ _ _ _ hcurr, t2,
      (opAssign_fuel_succ fuel).2 _ _ _ ht2, ih _ _ _ h⟩

theorem Divide_fuel_succ (fuel : Nat) (a rhs : BigInt) (is_module : Bool) (r : BigInt)
    (h : a.Divide fuel rhs is_module = some r) : a.Divide (fuel + 1) rhs is_module = some r := by
  unfold BigInt.Divide at h ⊢
  simp only [Option.bind_eq_bind, Option.bind_eq_some] at h ⊢
  obtain ⟨s, hs, f, hf, h⟩ := h
  exact ⟨s, skip_fuel_succ _ _ _ _ _ _ hs, f, main_fuel_succ _ _ _ _ _ _ _ _ hf, h⟩

theorem opSlash_fuel_succ (fuel : Nat) (a b r : BigInt)
    (h : a.opSlash fuel b = some r) : a.opSlash (fuel + 1) b = some r := by
  unfold BigInt.opSlash BigInt.opSlashAssign at h ⊢
  split_ifs at h ⊢ with h1
  · exact h
  · simp only [Option.bind_eq_bind, Option.bind_eq_some] at h ⊢
    obtain ⟨q, hq, h⟩ := h
    exact ⟨q, Divide_fuel_succ _ _ _ _ _ hq, h⟩

theorem opPercent_fuel_succ (fuel : Nat) (a b r : BigInt)
    (h : a.opPercent fuel b = some r) : a.opPercent (fuel + 1) b = some r := by
  unfold BigInt.opPercent BigInt.opPercentAssign at h ⊢
  simp only at h ⊢
  split_ifs at h ⊢ with h1
  · exact h
  · simp only [Option.bind_eq_bind, Option.bind_eq_some] at h ⊢
    obtain ⟨q, hq, h⟩ := h
    exact ⟨q, Divide_fuel_succ _ _ _ _ _ hq, h⟩

theorem divisionIdentity_fuel_succ (fuel : Nat) (a b : BigInt) (r : Bool)
    (h : divisionIdentity fuel a b = some r) : divisionIdentity (fuel + 1) a b = some r := by
  unfold divisionIdentity at h ⊢
  simp only [Option.bind_eq_bind, Option.bind_eq_some] at h ⊢
  obtain ⟨q, hq, m, hm, s, hs, h⟩ := h
  exact ⟨q, opSlash_fuel_succ _ _ _ _ hq, m, opPercent_fuel_succ _ _ _ _ hm, s,
    opPlus_fuel_succ _ _ _ _ hs, h⟩

/-- A result obtained with some fuel is the result with any larger fuel. -/
theorem fuel_add {α : Type} (f : Nat → Option α)
    (hsucc : ∀ fuel r, f fuel = some r → f (fuel + 1) = some r) (fuel : Nat) (r : α)
    (h : f fuel = some r) (n : Nat) : f (fuel + n) = some r := by
  induction n with
  | zero => exact h
  | succ n ih => exact hsucc _ _ ih

/-! ## Evaluations at the inputs where the code leaves the specification -/

/-- The concrete scenarios of the specification, evaluated on the embedding:
`9223372036854775807 + 1`, `-123 * 0`, `1000 / 7`, `1000 % 7`, `5 - 5`,
`-1 < 0` and `-5 < -3`. -/
theorem concrete_scenarios :
    BigInt.opPlus 10 (BigInt.ofInt64 9223372036854775807) (BigInt.ofInt64 1) =
      some ⟨true, [8, 0, 8, 5, 7, 7, 4, 5, 8, 6, 3, 0, 2, 7, 3, 3, 2, 2, 9]⟩ ∧
    (BigInt.ofInt64 (-123)).opStar (BigInt.ofInt64 0) = ⟨true, [0]⟩ ∧
    BigInt.opSlash 10 (BigInt.ofInt64 1000) (BigInt.ofInt64 7) = some (BigInt.ofInt64 142) ∧
    BigInt.opPercent 10 (BigInt.ofInt64 1000) (BigInt.ofInt64 7) = some (BigInt.ofInt64 6) ∧
    BigInt.opMinus 10 (BigInt.ofInt64 5) (BigInt.ofInt64 5) = some ⟨true, [0]⟩ ∧
    (BigInt.ofInt64 (-1)).opLt (BigInt.ofInt64 0) = true ∧
    (BigInt.ofInt64 (-5)).opLt (BigInt.ofInt64 (-3)) = true := by
  decide

/-- C1: `BigInt(1) + BigInt(10)` evaluates to `1` for every fuel from 1 on: the
carry loop of `operator+=` runs over the digits of the left operand only, so
the second digit of the longer right operand is never added, although both
operands are canonical and the integer sum is `11`. -/
theorem opPlus_loses_digits_of_longer_right_operand :
    (BigInt.ofInt64 1).Canonical ∧ (BigInt.ofInt64 10).Canonical ∧
    (∀ fuel, BigInt.opPlus (fuel + 1) (BigInt.ofInt64 1) (BigInt.ofInt64 10) =
      some (BigInt.ofInt64 1)) ∧
    (BigInt.ofInt64 1).val + (BigInt.ofInt64 10).val = 11 ∧ (BigInt.ofInt64 1).val = 1 :=
  ⟨by decide, by decide, fun _ => rfl, by decide, by decide⟩

/-- C2: the division identity `(a / b) * b + (a % b) == a` evaluates to false,
for every fuel from 10 on, at `a = 10, b = 11` (the final addition `0 + 10` loses the second digit of its
right operand) and at `a = 1000, b = -7` (`Divide` is handed the negative
divisor). -/
theorem divisionIdentity_fails :
    (BigInt.ofInt64 10).Canonical ∧ (BigInt.ofInt64 11).Canonical ∧
    (BigInt.ofInt64 1000).Canonical ∧ (BigInt.ofInt64 (-7)).Canonical ∧
    (∀ n, divisionIdentity (10 + n) (BigInt.ofInt64 10) (BigInt.ofInt64 11) = some false) ∧
    (∀ n, divisionIdentity (10 + n) (BigInt.ofInt64 1000) (BigInt.ofInt64 (-7)) =
      some false) :=
  ⟨by decide, by decide, by decide, by decide,
    fuel_add (fun fuel => divisionIdentity fuel (BigInt.ofInt64 10) (BigInt.ofInt64 11))
      (fun fuel r => divisionIdentity_fuel_succ fuel _ _ r) 10 false (by decide),
    fuel_add (fun fuel => divisionIdentity fuel (BigInt.ofInt64 1000) (BigInt.ofInt64 (-7)))
      (fun fuel r => divisionIdentity_fuel_succ fuel _ _ r) 10 false (by decide)⟩

/-- C3: `BigInt(1000) / BigInt(-7)` evaluates to `-9999` for every fuel from
10 on, while the quotient
truncated toward zero is `-142`: with a negative divisor the descending search
of `Divide` stops at `9` for every dividend digit. -/
theorem opSlash_negative_divisor :
    (BigInt.ofInt64 1000).Canonical ∧ (BigInt.ofInt64 (-7)).Canonical ∧
    (∀ n, BigInt.opSlash (10 + n) (BigInt.ofInt64 1000) (BigInt.ofInt64 (-7)) =
      some (BigInt.ofInt64 (-9999))) ∧
    (BigInt.ofInt64 (-9999)).val = -9999 ∧
    Int.tdiv (BigInt.ofInt64 1000).val (BigInt.ofInt64 (-7)).val = -142 :=
  ⟨by decide, by decide,
    fuel_add (fun fuel => BigInt.opSlash fuel (BigInt.ofInt64 1000) (BigInt.ofInt64 (-7)))
      (fun fuel r => opSlash_fuel_succ fuel _ _ r) 10 _ (by decide),
    by decide, by decide⟩

/-- C4: `BigInt(1000) % BigInt(-7)` evaluates to `10993` for every fuel
from 10 on, while the truncating
remainder is `6`: with a negative divisor `Divide` adds `9 * 7` to the running
partial value at every dividend digit. -/
theorem opPercent_negative_divisor :
    (BigInt.ofInt64 1000).Canonical ∧ (BigInt.ofInt64 (-7)).Canonical ∧
    (∀ n, BigInt.opPercent (10 + n) (BigInt.ofInt64 1000) (BigInt.ofInt64 (-7)) =
      some (BigInt.ofInt64 10993)) ∧
    (BigInt.ofInt64 10993).val = 10993 ∧
    Int.tmod (BigInt.ofInt64 1000).val (BigInt.ofInt64 (-7)).val = 6 :=
  ⟨by decide, by decide,
    fuel_add (fun fuel => BigInt.opPercent fuel (BigInt.ofInt64 1000) (BigInt.ofInt64 (-7)))
      (fun fuel r => opPercent_fuel_succ fuel _ _ r) 10 _ (by decide),
    by decide, by decide⟩

/-- C5: `BigInt(-6) % BigInt(3)` evaluates, for every fuel from 10 on, to the
digit `0` with a negative sign, which is not canonical: `operator%=` puts the sign of the dividend back
on a zero remainder. -/
theorem opPercent_negative_zero :
    (BigInt.ofInt64 (-6)).Canonical ∧ (BigInt.ofInt64 3).Canonical ∧
    (∀ n, BigInt.opPercent (10 + n) (BigInt.ofInt64 (-6)) (BigInt.ofInt64 3) =
      some ⟨false, [0]⟩) ∧
    ¬ (⟨false, [0]⟩ : BigInt).Canonical :=
  ⟨by decide, by decide,
    fuel_add (fun fuel => BigInt.opPercent fuel (BigInt.ofInt64 (-6)) (BigInt.ofInt64 3))
      (fun fuel r => opPercent_fuel_succ fuel _ _ r) 10 _ (by decide),
    by decide⟩

/-- C6: `BigInt(1) + BigInt(10)` is `1` and `BigInt(10) + BigInt(1)` is `11`,
for every fuel from 1 on, so `a + b == b + a` evaluates to false at these canonical
operands. -/
theorem opPlus_not_commutative :
    (BigInt.ofInt64 1).Canonical ∧ (BigInt.ofInt64 10).Canonical ∧
    (∀ fuel, BigInt.opPlus (fuel + 1) (BigInt.ofInt64 1) (BigInt.ofInt64 10) =
      some (BigInt.ofInt64 1)) ∧
    (∀ fuel, BigInt.opPlus (fuel + 1) (BigInt.ofInt64 10) (BigInt.ofInt64 1) =
      some (BigInt.ofInt64 11)) ∧
    (BigInt.ofInt64 1).opEq (BigInt.ofInt64 11) = false ∧
    (∀ fuel, plusCommutes (fuel + 1) (BigInt.ofInt64 1) (BigInt.ofInt64 10) = some false) :=
  ⟨by decide, by decide, fun _ => rfl, fun _ => rfl, by decide, fun _ => rfl⟩

/-- C7: `BigInt(1) - BigInt(-10)` evaluates to `1` for every fuel from 2 on, while
the integer difference is `11`: the mixed-sign case of `operator-=` goes
through the carry loop of `operator+=` with the longer operand on the right. -/
theorem opMinus_loses_digits_of_longer_right_operand :
    (BigInt.ofInt64 1).Canonical ∧ (BigInt.ofInt64 (-10)).Canonical ∧
    (∀ fuel, BigInt.opMinus (fuel + 2) (BigInt.ofInt64 1) (BigInt.ofInt64 (-10)) =
      some (BigInt.ofInt64 1)) ∧
    (BigInt.ofInt64 1).val - (BigInt.ofInt64 (-10)).val = 11 ∧ (BigInt.ofInt64 1).val = 1 :=
  ⟨by decide, by decide, fun _ => rfl, by decide, by decide⟩

/-! ## The carry loop and the borrow loop -/

theorem magnitude_take_step (xs : List Int) (k : Nat) :
    magnitude (xs.take (k + 1)) = magnitude (xs.take k) + xs.getD k 0 * 10 ^ k := by
  by_cases hk : k < xs.length
  · exact magnitude_take_succ xs k hk
  · rw [List.take_of_length_le (by omega), List.take_of_length_le (by omega),
      getD_of_length_le xs k (by omega)]
    ring

theorem GetRowsSum_add (digits rhs : List Int) (i : Nat) (hi : i < digits.length) :
    GetRowsSum digits rhs true i = digits.getD i 0 + rhs.getD i 0 := by
  unfold GetRowsSum
  by_cases h : i < rhs.length
  · simp [hi, h]
  · simp [hi, h, List.getElem?_eq_none (show rhs.length ≤ i by omega)]

theorem GetRowsSum_sub (digits rhs : List Int) (i : Nat) (hi : i < digits.length) :
    GetRowsSum digits rhs false i = digits.getD i 0 - rhs.getD i 0 := by
  unfold GetRowsSum
  by_cases h : i < rhs.length
  · simp [hi, h]
  · simp [hi, h, List.getElem?_eq_none (show rhs.length ≤ i by omega)]

/-- The carry loop of `operator+=` after `k` digits of the left operand. -/
theorem addLoop_spec (digits rhs : List Int) (hd : DigitsOk digits) (hr : DigitsOk rhs)
    (k : Nat) (hk : k ≤ digits.length) :
    ∃ ds c, (List.range k).foldl
      (fun (st : List Int × Int) i =>
        let curr := GetRowsSum st.1 rhs true i
        let curr := curr + st.2
        (st.1.set i (toInt8 (curr.tmod kBase)), curr.tdiv kBase))
      (digits, 0) = (ds, c) ∧
      ds.length = digits.length ∧ (∀ j, k ≤ j → ds.getD j 0 = digits.getD j 0) ∧
      DigitsOk (ds.take k) ∧ (c = 0 ∨ c = 1) ∧
      magnitude (ds.take k) + c * 10 ^ k =
        magnitude (digits.take k) + magnitude (rhs.take k) := by
  induction k with
  | zero =>
    refine ⟨digits, 0, rfl, rfl, fun _ _ => rfl, ?_, Or.inl rfl, ?_⟩
    · intro d hd0
      simp at hd0
    · simp [magnitude_nil]
  | succ k ih =>
    obtain ⟨ds, c, e, i1, i2, i3, i4, i5⟩ := ih (by omega)
    rw [List.range_succ, List.foldl_append, e]
    simp only [List.foldl_cons, List.foldl_nil]
    rw [GetRowsSum_add ds rhs k (by omega), i2 k (le_refl _)]
    have hdk := getD_digit digits hd k
    have hrk := getD_digit rhs hr k
    have hc : 0 ≤ digits.getD k 0 + rhs.getD k 0 + c := by omega
    have hmod : (digits.getD k 0 + rhs.getD k 0 + c).tmod kBase =
        (digits.getD k 0 + rhs.getD k 0 + c) % 10 := Int.tmod_eq_emod hc (by decide)
    have hdiv : (digits.getD k 0 + rhs.getD k 0 + c).tdiv kBase =
        (digits.getD k 0 + rhs.getD k 0 + c) / 10 := Int.tdiv_eq_ediv hc (by decide)
    rw [hmod, hdiv, toInt8_of_small _ (by omega) (by omega)]
    have htake := take_set_succ ds k ((digits.getD k 0 + rhs.getD k 0 + c) % 10) (by omega)
    have hlk : (ds.take k).length = k := by
      rw [List.length_take]
      omega
    refine ⟨_, _, rfl, ?_, ?_, ?_, ?_, ?_⟩
    · rw [List.length_set, i1]
    · intro j hj
      rw [getD_set_ne _ _ _ _ (by omega)]
      exact i2 j (by omega)
    · rw [htake, DigitsOk_append]
      refine ⟨i3, ?_⟩
      intro d hd0
      rw [List.mem_singleton] at hd0
      omega
    · omega
    · rw [htake, magnitude_append, hlk, magnitude_cons, magnitude_nil,
        magnitude_take_succ digits k (by omega), magnitude_take_step rhs k, pow_succ]
      have := Int.ediv_add_emod (digits.getD k 0 + rhs.getD k 0 + c) 10
      linear_combination ((10 : Int) ^ k) * this + i5

theorem AbsSubstraction_eq (self rhs : BigInt) :
    self.AbsSubstraction rhs =
      { self with digits_ := RemoveZeros (borrowLoop self.digits_ rhs.digits_).1 } := rfl

/-- The borrow loop of `AbsSubstraction` after `k` digits of the left operand. -/
theorem subLoop_spec (digits rhs : List Int) (hd : DigitsOk digits) (hr : DigitsOk rhs)
    (k : Nat) (hk : k ≤ digits.length) :
    ∃ ds c, (List.range k).foldl
      (fun (st : List Int × Int) i =>
        let curr := GetRowsSum st.1 rhs false i
        let curr := curr - st.2
        let next : Int × Int := if curr < 0 then (curr + kBase, 1) else (curr, 0)
        (st.1.set i (toInt8 (next.1.tmod kBase)), next.2))
      (digits, 0) = (ds, c) ∧
      ds.length = digits.length ∧ (∀ j, k ≤ j → ds.getD j 0 = digits.getD j 0) ∧
      DigitsOk (ds.take k) ∧ (c = 0 ∨ c = 1) ∧
      magnitude (ds.take k) - c * 10 ^ k =
        magnitude (digits.take k) - magnitude (rhs.take k) := by
  induction k with
  | zero =>
    refine ⟨digits, 0, rfl, rfl, fun _ _ => rfl, ?_, Or.inl rfl, ?_⟩
    · intro d hd0
      simp at hd0
    · simp [magnitude_nil]
  | succ k ih =>
    obtain ⟨ds, c, e, i1, i2, i3, i4, i5⟩ := ih (by omega)
    rw [List.range_succ, List.foldl_append, e]
    simp only [List.foldl_cons, List.foldl_nil]
    rw [GetRowsSum_sub ds rhs k (by omega), i2 k (le_refl _)]
    have hdk := getD_digit digits hd k
    have hrk := getD_digit rhs hr k
    have htk : ∀ v : Int, (ds.set k v).take (k + 1) = ds.take k ++ [v] :=
      fun v => take_set_succ ds k v (by omega)
    have hlk : (ds.take k).length = k := by
      rw [List.length_take]
      omega
    by_cases hneg : digits.getD k 0 - rhs.getD k 0 - c < 0
    · rw [if_pos hneg]
      have hc : 0 ≤ digits.getD k 0 - rhs.getD k 0 - c + kBase := by
        unfold kBase
        omega
      have hmod : (digits.getD k 0 - rhs.getD k 0 - c + kBase).tmod kBase =
          digits.getD k 0 - rhs.getD k 0 - c + 10 := by
        rw [Int.tmod_eq_emod hc (by decide)]
        unfold kBase
        omega
      simp only [hmod]
      rw [toInt8_of_small _ (by omega) (by omega)]
      refine ⟨_, _, rfl, ?_, ?_, ?_, Or.inr rfl, ?_⟩
      · rw [List.length_set, i1]
      · intro j hj
        rw [getD_set_ne _ _ _ _ (by omega)]
        exact i2 j (by omega)
      · rw [htk, DigitsOk_append]
        refine ⟨i3, ?_⟩
        intro d hd0
        rw [List.mem_singleton] at hd0
        omega
      · rw [htk, magnitude_append, hlk, magnitude_cons, magnitude_nil,
          magnitude_take_succ digits k (by omega), magnitude_take_step rhs k, pow_succ]
        linear_combination i5
    · rw [if_neg hneg]
      have hc : 0 ≤ digits.getD k 0 - rhs.getD k 0 - c := by omega
      have hmod : (digits.getD k 0 - rhs.getD k 0 - c).tmod kBase =
          digits.getD k 0 - rhs.getD k 0 - c := by
        rw [Int.tmod_eq_emod hc (by decide)]
        unfold kBase
        omega
      simp only [hmod]
      rw [toInt8_of_small _ (by omega) (by omega)]
      refine ⟨_, _, rfl, ?_, ?_, ?_, Or.inl rfl, ?_⟩
      · rw [List.length_set, i1]
      · intro j hj
        rw [getD_set_ne _ _ _ _ (by omega)]
        exact i2 j (by omega)
      · rw [htk, DigitsOk_append]
        refine ⟨i3, ?_⟩
        intro d hd0
        rw [List.mem_singleton] at hd0
        omega
      · rw [htk, magnitude_append, hlk, magnitude_cons, magnitude_nil,
          magnitude_take_succ digits k (by omega), magnitude_take_step rhs k, pow_succ]
        linear_combination i5

theorem getLast?_ne_zero_of_pow_le (ds : List Int) (hok : DigitsOk ds)
    (h : 10 ^ (ds.length - 1) ≤ magnitude ds) : ds.getLast? ≠ some 0 := by
  intro hlast
  have hsplit := eq_dropLast_append_of_getLast ds 0 hlast
  rw [hsplit, DigitsOk_append] at hok
  have h1 := magnitude_lt_pow _ hok.1
  rw [List.length_dropLast] at h1
  have h2 : magnitude ds = magnitude ds.dropLast := by
    conv_lhs => rw [hsplit]
    rw [magnitude_append, magnitude_cons, magnitude_nil]
    ring
  omega

theorem addDigits_spec (digits rhs : List Int) (hd : DigitsOk digits) (hr : DigitsOk rhs) :
    DigitsOk (addDigits digits rhs) ∧
    magnitude (addDigits digits rhs) = magnitude digits + magnitude (rhs.take digits.length) ∧
    digits.length ≤ (addDigits digits rhs).length ∧
    (CanonDigits digits → CanonDigits (addDigits digits rhs)) := by
  obtain ⟨ds, c, e, i1, _, i3, i4, i5⟩ := addLoop_spec digits rhs hd hr digits.length (le_refl _)
  have hfull : ds.take digits.length = ds := by rw [← i1, List.take_length]
  rw [hfull] at i3 i5
  rw [List.take_length] at i5
  have hm : 0 ≤ magnitude (rhs.take digits.length) :=
    magnitude_nonneg _ (fun d hd0 => hr d (List.mem_of_mem_take hd0))
  unfold addDigits
  rw [e]
  simp only
  rcases i4 with hc | hc
  · subst hc
    have hres : (if ((0 : Int) != 0) = true then ds ++ [toInt8 0] else ds) = ds := by simp
    rw [hres]
    refine ⟨i3, by omega, by omega, ?_⟩
    rintro ⟨hne, _, hlast⟩
    refine ⟨?_, i3, ?_⟩
    · intro h0
      rw [h0] at i1
      exact hne (List.length_eq_zero.mp i1.symm)
    · intro hlen
      apply getLast?_ne_zero_of_pow_le ds i3
      rw [i1] at hlen ⊢
      have := pow_le_magnitude digits hd hne (hlast hlen)
      omega
  · subst hc
    have hres : (if ((1 : Int) != 0) = true then ds ++ [toInt8 1] else ds) = ds ++ [1] := by
      simp [toInt8]
    rw [hres]
    refine ⟨?_, ?_, ?_, ?_⟩
    · rw [DigitsOk_append]
      refine ⟨i3, ?_⟩
      intro d hd0
      rw [List.mem_singleton] at hd0
      omega
    · rw [magnitude_append, magnitude_cons, magnitude_nil, i1]
      linear_combination i5
    · rw [List.length_append, i1]
      omega
    · intro _
      refine ⟨by simp, ?_, ?_⟩
      · rw [DigitsOk_append]
        refine ⟨i3, ?_⟩
        intro d hd0
        rw [List.mem_singleton] at hd0
        omega
      · intro _
        simp

theorem borrowLoop_spec (digits rhs : List Int) (hd : DigitsOk digits) (hr : DigitsOk rhs)
    (hlen : rhs.length ≤ digits.length) (hge : magnitude rhs ≤ magnitude digits) :
    (borrowLoop digits rhs).2 = 0 ∧ DigitsOk (borrowLoop digits rhs).1 ∧
    (borrowLoop digits rhs).1.length = digits.length ∧
    magnitude (borrowLoop digits rhs).1 = magnitude digits - magnitude rhs := by
  obtain ⟨ds, c, e, i1, _, i3, i4, i5⟩ := subLoop_spec digits rhs hd hr digits.length (le_refl _)
  have hfull : ds.take digits.length = ds := by rw [← i1, List.take_length]
  rw [hfull] at i3 i5
  rw [List.take_length, List.take_of_length_le hlen] at i5
  unfold borrowLoop
  rw [e]
  simp only
  have h1 := magnitude_lt_pow _ i3
  have h0 := magnitude_nonneg _ i3
  rw [i1] at h1
  have hp : (0 : Int) < 10 ^ digits.length := by positivity
  have hc : c = 0 := by
    rcases i4 with hc | hc
    · exact hc
    · subst hc
      omega
  subst hc
  exact ⟨rfl, i3, i1, by omega⟩

/-- The digits `AbsSubstraction` leaves when the left operand is the larger. -/
theorem AbsSubstraction_digits (digits rhs : List Int) (hd : DigitsOk digits)
    (hr : DigitsOk rhs) (hne : digits ≠ []) (hlen : rhs.length ≤ digits.length)
    (hge : magnitude rhs ≤ magnitude digits) :
    CanonDigits (RemoveZeros (borrowLoop digits rhs).1) ∧
    magnitude (RemoveZeros (borrowLoop digits rhs).1) = magnitude digits - magnitude rhs := by
  obtain ⟨_, b2, b3, b4⟩ := borrowLoop_spec digits rhs hd hr hlen hge
  obtain ⟨r1, r2, r3, r4⟩ := RemoveZeros_spec (borrowLoop digits rhs).1
  have hne2 : (borrowLoop digits rhs).1 ≠ [] := by
    intro h0
    rw [h0] at b3
    exact hne (List.length_eq_zero.mp b3.symm)
  exact ⟨⟨r3 hne2, r2 b2, r4⟩, by rw [r1, b4]⟩

/-! ## Signed addition and subtraction -/

theorem val_of_positive (a : BigInt) (h : a.is_positive_ = true) :
    a.val = magnitude a.digits_ := by
  simp [BigInt.val, h]

theorem val_of_negative (a : BigInt) (h : a.is_positive_ = false) :
    a.val = - magnitude a.digits_ := by
  simp [BigInt.val, h]

theorem Canonical_positive (s : Bool) (ds : List Int) (h : (⟨s, ds⟩ : BigInt).Canonical) :
    (⟨true, ds⟩ : BigInt).Canonical := by
  rw [Canonical_iff] at h ⊢
  exact ⟨h.1, fun _ => rfl⟩

theorem Canonical_of_pos (s : Bool) (ds : List Int) (hc : CanonDigits ds)
    (hpos : 0 < magnitude ds) : (⟨s, ds⟩ : BigInt).Canonical := by
  rw [Canonical_iff]
  refine ⟨hc, ?_⟩
  intro h0
  simp only at h0
  rw [h0, magnitude_cons, magnitude_nil] at hpos
  omega

theorem magnitude_pos_of_negative (a : BigInt) (ha : a.Canonical)
    (hs : a.is_positive_ = false) : 0 < magnitude a.digits_ := by
  rw [Canonical_iff] at ha
  apply CanonDigits_pos _ ha.1
  intro h0
  have := ha.2 h0
  rw [hs] at this
  exact absurd this (by decide)

theorem opNeg_negative (a : BigInt) (ha : a.Canonical) (hs : a.is_positive_ = false) :
    a.opNeg = ⟨true, a.digits_⟩ := by
  have hne : a.digits_ ≠ [0] := by
    intro h0
    have := ha.2.2.2 h0
    rw [hs] at this
    exact absurd this (by decide)
  have hc : (a.digits_.length != 1 || a.digits_.getD 0 0 != 0) = true := by
    obtain ⟨s, ds⟩ := a
    simp only at hne ⊢
    match ds, hne with
    | [], _ => rfl
    | [d], hne =>
      have : d ≠ 0 := fun h => hne (by rw [h])
      simpa using this
    | _ :: _ :: _, _ => rfl
  unfold BigInt.opNeg
  rw [if_pos hc, hs]
  rfl

theorem length_le_of_val_le (a b : BigInt) (ha : a.Canonical) (hb : b.Canonical)
    (h : magnitude b.digits_ ≤ magnitude a.digits_) :
    b.digits_.length ≤ a.digits_.length := by
  by_contra hlen
  have := magnitude_lt_of_length_lt a.digits_ b.digits_ ((Canonical_iff a).mp ha).1
    ((Canonical_iff b).mp hb).1 (by omega)
  omega

theorem opGt_iff (a b : BigInt) (ha : a.Canonical) (hb : b.Canonical) :
    a.opGt b = true ↔ b.val < a.val := by
  unfold BigInt.opGt
  rw [opSpaceship_eq_compare a b ha hb]
  have h1 : (compare a.val b.val == Ordering.gt) = true ↔
      compare a.val b.val = Ordering.gt := by
    cases compare a.val b.val <;> decide
  exact h1.trans compare_gt_iff_gt

/-- The result of `AbsSubstraction` on two non-negative canonical values, the
left one being at least the right one. -/
theorem AbsSubstraction_spec (a b : BigInt) (ha : a.Canonical) (hb : b.Canonical)
    (hpa : a.is_positive_ = true) (hpb : b.is_positive_ = true) (hle : b.val ≤ a.val) :
    (a.AbsSubstraction b).is_positive_ = true ∧
    CanonDigits (a.AbsSubstraction b).digits_ ∧
    magnitude (a.AbsSubstraction b).digits_ = a.val - b.val := by
  have hva := val_of_positive a hpa
  have hvb := val_of_positive b hpb
  have hge : magnitude b.digits_ ≤ magnitude a.digits_ := by omega
  obtain ⟨c1, c2⟩ := AbsSubstraction_digits a.digits_ b.digits_ ha.2.1 hb.2.1 ha.1
    (length_le_of_val_le a b ha hb hge) hge
  rw [AbsSubstraction_eq]
  exact ⟨hpa, c1, by rw [c2, hva, hvb]⟩

/-- Subtraction of two non-negative canonical values. -/
theorem opMinusAssign_positive (fuel : Nat) (a b : BigInt) (ha : a.Canonical)
    (hb : b.Canonical) (hpa : a.is_positive_ = true) (hpb : b.is_positive_ = true) :
    ∃ r, BigInt.opMinusAssign (fuel + 2) a b = some r ∧ r.Canonical ∧
      r.val = a.val - b.val := by
  rw [BigInt.opMinusAssign]
  simp only [hpa, hpb, Bool.not_true, Bool.and_false, Bool.false_and, Bool.and_self,
    Bool.false_eq_true, if_false]
  by_cases hgt : b.opGt a = true
  · rw [if_pos hgt, BigInt.opMinusAssign]
    simp only [hpa, hpb, Bool.not_true, Bool.and_false, Bool.false_and, Bool.and_self,
      Bool.false_eq_true, if_false]
    rw [opGt_iff b a hb ha] at hgt
    have hng : ¬ (a.opGt b = true) := by
      rw [opGt_iff a b ha hb]
      omega
    rw [if_neg hng]
    obtain ⟨s1, s2, s3⟩ := AbsSubstraction_spec b a hb ha hpb hpa (by omega)
    refine ⟨_, rfl, ?_, ?_⟩
    · apply Canonical_of_pos _ _ s2
      omega
    · rw [val_of_negative _ (by simp [s1])]
      simp only
      rw [s3]
      ring
  · rw [if_neg hgt]
    rw [opGt_iff b a hb ha] at hgt
    obtain ⟨s1, s2, s3⟩ := AbsSubstraction_spec a b ha hb hpa hpb (by omega)
    refine ⟨_, rfl, ?_, ?_⟩
    · rw [Canonical_iff]
      exact ⟨s2, fun _ => s1⟩
    · rw [val_of_positive _ s1]
      exact s3

/-- The carry loop of `operator+=` is what runs on operands of equal sign. -/
theorem opPlusAssign_same_sign (fuel : Nat) (a b : BigInt)
    (hs : a.is_positive_ = b.is_positive_) :
    BigInt.opPlusAssign (fuel + 1) a b =
      some { a with digits_ := addDigits a.digits_ b.digits_ } := by
  rw [BigInt.opPlusAssign]
  cases hb : b.is_positive_ <;> simp [hs, hb]

/-- Addition of two canonical values of equal sign, the right one having no
more digits than the left one. -/
theorem addDigits_canonical (a b : BigInt) (ha : a.Canonical) (hb : b.Canonical)
    (hs : a.is_positive_ = b.is_positive_) (hlen : b.digits_.length ≤ a.digits_.length) :
    (⟨a.is_positive_, addDigits a.digits_ b.digits_⟩ : BigInt).Canonical ∧
    (⟨a.is_positive_, addDigits a.digits_ b.digits_⟩ : BigInt).val = a.val + b.val := by
  obtain ⟨d1, d2, _, d4⟩ := addDigits_spec a.digits_ b.digits_ ha.2.1 hb.2.1
  rw [List.take_of_length_le hlen] at d2
  have hca := ((Canonical_iff a).mp ha).1
  have mb := magnitude_nonneg _ hb.2.1
  have ma := magnitude_nonneg _ ha.2.1
  cases hsa : a.is_positive_
  · have pa := magnitude_pos_of_negative a ha hsa
    refine ⟨Canonical_of_pos _ _ (d4 hca) (by omega), ?_⟩
    rw [val_of_negative _ rfl, val_of_negative a hsa, val_of_negative b (by rw [← hs, hsa])]
    simp only
    omega
  · refine ⟨?_, ?_⟩
    · rw [Canonical_iff]
      exact ⟨d4 hca, fun _ => rfl⟩
    · rw [val_of_positive _ rfl, val_of_positive a hsa, val_of_positive b (by rw [← hs, hsa])]
      simp only
      omega

/-- Addition is exact when the signs differ or the left operand has at least
as many digits as the right one. -/
theorem opPlusAssign_spec (fuel : Nat) (a b : BigInt) (ha : a.Canonical) (hb : b.Canonical)
    (h : a.is_positive_ ≠ b.is_positive_ ∨ b.digits_.length ≤ a.digits_.length) :
    ∃ r, BigInt.opPlusAssign (fuel + 3) a b = some r ∧ r.Canonical ∧
      r.val = a.val + b.val := by
  cases hsa : a.is_positive_ <;> cases hsb : b.is_positive_
  · have hlen : b.digits_.length ≤ a.digits_.length := by
      rcases h with h | h
      · rw [hsa, hsb] at h
        exact absurd rfl h
      · exact h
    rw [opPlusAssign_same_sign _ a b (by rw [hsa, hsb])]
    obtain ⟨c1, c2⟩ := addDigits_canonical a b ha hb (by rw [hsa, hsb]) hlen
    rw [hsa] at c1 c2
    exact ⟨_, rfl, by rw [hsa]; exact c1, by rw [hsa]; exact c2⟩
  · rw [BigInt.opPlusAssign]
    simp only [hsa, hsb, Bool.not_false, Bool.and_self, if_true]
    have hab : (⟨true, a.digits_⟩ : BigInt).Canonical := by
      obtain ⟨s, ds⟩ := a
      exact Canonical_positive s ds ha
    obtain ⟨r, e, c1, c2⟩ := opMinusAssign_positive fuel b ⟨true, a.digits_⟩ hb hab hsb rfl
    refine ⟨r, e, c1, ?_⟩
    rw [c2, val_of_negative a hsa, val_of_positive ⟨true, a.digits_⟩ rfl]
    ring
  · rw [BigInt.opPlusAssign]
    simp only [hsa, hsb, Bool.not_true, Bool.and_false, Bool.false_eq_true, if_false,
      Bool.not_false, Bool.and_self, if_true]
    rw [opNeg_negative b hb hsb]
    have hbb : (⟨true, b.digits_⟩ : BigInt).Canonical := by
      obtain ⟨s, ds⟩ := b
      exact Canonical_positive s ds hb
    obtain ⟨r, e, c1, c2⟩ := opMinusAssign_positive fuel a ⟨true, b.digits_⟩ ha hbb hsa rfl
    refine ⟨r, e, c1, ?_⟩
    rw [c2, val_of_negative b hsb, val_of_positive ⟨true, b.digits_⟩ rfl]
    ring
  · have hlen : b.digits_.length ≤ a.digits_.length := by
      rcases h with h | h
      · rw [hsa, hsb] at h
        exact absurd rfl h
      · exact h
    rw [opPlusAssign_same_sign _ a b (by rw [hsa, hsb])]
    obtain ⟨c1, c2⟩ := addDigits_canonical a b ha hb (by rw [hsa, hsb]) hlen
    rw [hsa] at c1 c2
    exact ⟨_, rfl, by rw [hsa]; exact c1, by rw [hsa]; exact c2⟩

/-- Subtraction is exact when the signs agree or the left operand has at
least as many digits as the right one. -/
theorem opMinusAssign_spec (fuel : Nat) (a b : BigInt) (ha : a.Canonical) (hb : b.Canonical)
    (h : a.is_positive_ = b.is_positive_ ∨ b.digits_.length ≤ a.digits_.length) :
    ∃ r, BigInt.opMinusAssign (fuel + 3) a b = some r ∧ r.Canonical ∧
      r.val = a.val - b.val := by
  have hab : (⟨true, a.digits_⟩ : BigInt).Canonical := by
    obtain ⟨s, ds⟩ := a
    exact Canonical_positive s ds ha
  have hbb : (⟨true, b.digits_⟩ : BigInt).Canonical := by
    obtain ⟨s, ds⟩ := b
    exact Canonical_positive s ds hb
  cases hsa : a.is_positive_ <;> cases hsb : b.is_positive_
  · rw [BigInt.opMinusAssign]
    simp only [hsa, hsb, Bool.not_false, Bool.and_false, Bool.false_eq_true, if_false,
      Bool.false_and, Bool.and_self, if_true]
    rw [opNeg_negative b hb hsb]
    obtain ⟨r, e, c1, c2⟩ :=
      opMinusAssign_positive fuel ⟨true, b.digits_⟩ ⟨true, a.digits_⟩ hbb hab rfl rfl
    refine ⟨r, e, c1, ?_⟩
    rw [c2, val_of_negative a hsa, val_of_negative b hsb, val_of_positive ⟨true, a.digits_⟩ rfl,
      val_of_positive ⟨true, b.digits_⟩ rfl]
    ring
  · have hlen : b.digits_.length ≤ a.digits_.length := by
      rcases h with h | h
      · rw [hsa, hsb] at h
        exact absurd h (by decide)
      · exact h
    rw [BigInt.opMinusAssign]
    simp only [hsa, hsb, Bool.not_false, Bool.and_self, if_true]
    rw [opPlusAssign_same_sign _ ⟨true, a.digits_⟩ b (by rw [hsb])]
    obtain ⟨_, d2, _, d4⟩ := addDigits_spec a.digits_ b.digits_ ha.2.1 hb.2.1
    rw [List.take_of_length_le hlen] at d2
    have pa := magnitude_pos_of_negative a ha hsa
    have mb := magnitude_nonneg _ hb.2.1
    refine ⟨_, rfl, ?_, ?_⟩
    · exact Canonical_of_pos _ (addDigits a.digits_ b.digits_)
        (d4 ((Canonical_iff a).mp ha).1) (by omega)
    · rw [val_of_negative _ rfl, val_of_negative a hsa, val_of_positive b hsb]
      simp only
      omega
  · have hlen : b.digits_.length ≤ a.digits_.length := by
      rcases h with h | h
      · rw [hsa, hsb] at h
        exact absurd h (by decide)
      · exact h
    rw [BigInt.opMinusAssign]
    simp only [hsa, hsb, Bool.not_true, Bool.and_false, Bool.false_eq_true, if_false,
      Bool.not_false, Bool.and_self, if_true]
    rw [opNeg_negative b hb hsb, opPlusAssign_same_sign _ a ⟨true, b.digits_⟩ (by rw [hsa])]
    obtain ⟨c1, c2⟩ := addDigits_canonical a ⟨true, b.digits_⟩ ha hbb (by rw [hsa]) hlen
    refine ⟨_, rfl, c1, ?_⟩
    rw [c2, val_of_negative b hsb, val_of_positive ⟨true, b.digits_⟩ rfl]
    ring
  · obtain ⟨r, e, c1, c2⟩ := opMinusAssign_positive (fuel + 1) a b ha hb hsa hsb
    exact ⟨r, e, c1, c2⟩

/-! ## Trichotomy, inverses, commutativity of the product, increments -/

theorem vectorCompare_eq_iff : ∀ xs ys : List Int,
    vectorCompare xs ys = Ordering.eq ↔ xs = ys
  | [], [] => by simp [vectorCompare]
  | [], _ :: _ => by simp [vectorCompare]
  | _ :: _, [] => by simp [vectorCompare]
  | x :: xs, y :: ys => by
    rw [vectorCompare]
    by_cases c1 : x < y
    · rw [if_pos c1]
      have : x ≠ y := by omega
      simp [this]
    · rw [if_neg c1]
      by_cases c2 : y < x
      · rw [if_pos c2]
        have : x ≠ y := by omega
        simp [this]
      · rw [if_neg c2, vectorCompare_eq_iff xs ys]
        have : x = y := by omega
        simp [this]

theorem compare_length_ne_eq (m n : Nat) (h : m ≠ n) : compare m n ≠ Ordering.eq := by
  intro he
  exact h (compare_eq_iff_eq.mp he)

/-- The three-way comparison returns equal exactly on equal sign flags and
equal digit vectors, canonical or not. -/
theorem opSpaceship_eq_iff (a b : BigInt) : a.opSpaceship b = Ordering.eq ↔ a = b := by
  obtain ⟨sa, da⟩ := a
  obtain ⟨sb, db⟩ := b
  unfold BigInt.opSpaceship
  cases sa <;> cases sb
  · simp only [Bool.not_false, Bool.and_false, Bool.false_eq_true, if_false, Bool.and_self,
      if_true, Bool.false_and]
    by_cases hlen : da.length = db.length
    · have hc : ¬ ((da.length != db.length) = true) := by simp [hlen]
      rw [if_neg hc, vectorCompare_eq_iff]
      constructor
      · intro h
        rw [List.reverse_inj.mp h]
      · intro h
        injection h with _ h2
        rw [h2]
    · have hc : (da.length != db.length) = true := by simpa using hlen
      rw [if_pos hc]
      constructor
      · intro h
        exact absurd h (compare_length_ne_eq _ _ (Ne.symm hlen))
      · intro h
        injection h with _ h2
        rw [h2] at hlen
        exact absurd rfl hlen
  · simp
  · simp
  · simp only [Bool.not_true, Bool.false_and, Bool.and_false, Bool.false_eq_true, if_false,
      Bool.and_self]
    by_cases hlen : da.length = db.length
    · have hc : ¬ ((da.length != db.length) = true) := by simp [hlen]
      rw [if_neg hc, vectorCompare_eq_iff]
      constructor
      · intro h
        rw [List.reverse_inj.mp h]
      · intro h
        injection h with _ h2
        rw [h2]
    · have hc : (da.length != db.length) = true := by simpa using hlen
      rw [if_pos hc]
      constructor
      · intro h
        exact absurd h (compare_length_ne_eq _ _ hlen)
      · intro h
        injection h with _ h2
        rw [h2] at hlen
        exact absurd rfl hlen

/-- C11: for any two `BigInt` values, canonical or not, exactly one of `a < b`,
`a == b`, `a > b` holds, `<` and `>` being those of `operator<=>` and `==` the
member-wise equality. -/
theorem trichotomy (a b : BigInt) :
    (a.opLt b = true ∧ a.opEq b = false ∧ a.opGt b = false) ∨
    (a.opLt b = false ∧ a.opEq b = true ∧ a.opGt b = false) ∨
    (a.opLt b = false ∧ a.opEq b = false ∧ a.opGt b = true) := by
  have heq := opSpaceship_eq_iff a b
  have hne : a.opEq b = false ↔ a.opSpaceship b ≠ Ordering.eq := by
    rw [Bool.eq_false_iff, Ne, opEq_iff, Ne, heq]
  unfold BigInt.opLt BigInt.opGt
  cases hc : a.opSpaceship b
  · refine Or.inl ⟨rfl, ?_, rfl⟩
    rw [hne, hc]
    decide
  · refine Or.inr (Or.inl ⟨rfl, ?_, rfl⟩)
    rw [opEq_iff, ← heq, hc]
  · refine Or.inr (Or.inr ⟨rfl, ?_, rfl⟩)
    rw [hne, hc]
    decide

theorem opNeg_spec (a : BigInt) (ha : a.Canonical) :
    a.opNeg.Canonical ∧ a.opNeg.val = - a.val ∧ a.opNeg.digits_ = a.digits_ := by
  by_cases hz : a.val = 0
  · have := (val_eq_zero_iff a ha).mp hz
    subst this
    decide
  · have hpos := magnitude_pos_of_val_ne_zero a ha hz
    have hne : a.digits_ ≠ [0] := by
      intro h0
      rw [h0, magnitude_cons, magnitude_nil] at hpos
      omega
    have hc : (a.digits_.length != 1 || a.digits_.getD 0 0 != 0) = true := by
      obtain ⟨s, ds⟩ := a
      simp only at hne ⊢
      match ds, hne with
      | [], _ => rfl
      | [d], hne =>
        have : d ≠ 0 := fun h => hne (by rw [h])
        simpa using this
      | _ :: _ :: _, _ => rfl
    unfold BigInt.opNeg
    rw [if_pos hc]
    refine ⟨Canonical_of_pos _ a.digits_ ((Canonical_iff a).mp ha).1 hpos, ?_, rfl⟩
    cases hs : a.is_positive_
    · rw [val_of_positive _ (by simp [hs]), val_of_negative a hs]
      simp
    · rw [val_of_negative _ (by simp [hs]), val_of_positive a hs]

theorem eq_zero_of_val (r : BigInt) (hr : r.Canonical) (hv : r.val = 0) :
    r = ⟨true, [0]⟩ ∧ r.opEq (BigInt.ofInt64 0) = true := by
  have := (val_eq_zero_iff r hr).mp hv
  subst this
  exact ⟨rfl, by decide⟩

/-- C12: for every canonical `a` and every fuel from 3 on, `a + (-a)` and
`a - a` both evaluate to the single digit `0` with non-negative sign, so both
compare equal to `BigInt(0)` under `operator==`. -/
theorem additive_inverse (a : BigInt) (ha : a.Canonical) (fuel : Nat) :
    BigInt.opPlus (fuel + 3) a a.opNeg = some ⟨true, [0]⟩ ∧
    BigInt.opMinus (fuel + 3) a a = some ⟨true, [0]⟩ ∧
    (⟨true, [0]⟩ : BigInt).opEq (BigInt.ofInt64 0) = true := by
  obtain ⟨n1, n2, n3⟩ := opNeg_spec a ha
  obtain ⟨r, e1, c1, v1⟩ := opPlusAssign_spec fuel a a.opNeg ha n1 (Or.inr (by rw [n3]))
  obtain ⟨s, e2, c2, v2⟩ := opMinusAssign_spec fuel a a ha ha (Or.inl rfl)
  have hr := (eq_zero_of_val r c1 (by rw [v1, n2]; ring)).1
  have hs := (eq_zero_of_val s c2 (by rw [v2]; ring)).1
  subst hr
  subst hs
  exact ⟨e1, e2, by decide⟩

/-- C12 at `-123`. -/
theorem additive_inverse_witness :
    (BigInt.ofInt64 (-123)).Canonical ∧
    BigInt.opPlus 3 (BigInt.ofInt64 (-123)) (BigInt.ofInt64 (-123)).opNeg = some ⟨true, [0]⟩ ∧
    BigInt.opMinus 3 (BigInt.ofInt64 (-123)) (BigInt.ofInt64 (-123)) = some ⟨true, [0]⟩ :=
  ⟨by decide, (additive_inverse (BigInt.ofInt64 (-123)) (by decide) 0).1,
    (additive_inverse (BigInt.ofInt64 (-123)) (by decide) 0).2.1⟩

/-- C13: `a * b == b * a` holds for every `a` and `b`, canonical or not: the
two products have the same sign flag and the same digit vector. -/
theorem opStar_commutative (a b : BigInt) :
    (a.opStar b).opEq (b.opStar a) = true ∧ a.opStar b = b.opStar a :=
  ⟨(opEq_iff _ _).mpr (opStar_comm a b), opStar_comm a b⟩

/-- C14: the string constructor leaves `"-00"` negative: it builds the digits
`[0, 0]` with `is_positive_ = false`, although the magnitude is zero; only
the single digit `0` (as in `"-0"`) has its sign reset. -/
theorem ofString_minus_zero_zero :
    BigInt.ofString ['-', '0', '0'] = ⟨false, [0, 0]⟩ ∧ magnitude [0, 0] = 0 ∧
    BigInt.ofString ['-', '0'] = ⟨true, [0]⟩ := by
  decide

theorem ofInt64_one : BigInt.ofInt64 1 = ⟨true, [1]⟩ := by decide

/-- C15: for every canonical `a` and every fuel from 3 on, pre- and
post-increment leave a canonical object of value `val a + 1`, pre- and
post-decrement a canonical object of value `val a - 1`; the pre forms return
the updated object and the post forms return the original `a`. -/
theorem increment_decrement (a : BigInt) (ha : a.Canonical) (fuel : Nat) :
    ∃ up down : BigInt,
      up.Canonical ∧ up.val = a.val + 1 ∧ down.Canonical ∧ down.val = a.val - 1 ∧
      BigInt.opPreInc (fuel + 3) a = some up ∧
      BigInt.opPostInc (fuel + 3) a = some (up, a) ∧
      BigInt.opPreDec (fuel + 3) a = some down ∧
      BigInt.opPostDec (fuel + 3) a = some (down, a) := by
  have hone : (BigInt.ofInt64 1).Canonical := by decide
  have hlen : (BigInt.ofInt64 1).digits_.length ≤ a.digits_.length := by
    rw [ofInt64_one]
    exact List.length_pos.mpr ha.1
  obtain ⟨up, e1, c1, v1⟩ := opPlusAssign_spec fuel a (BigInt.ofInt64 1) ha hone (Or.inr hlen)
  obtain ⟨down, e2, c2, v2⟩ :=
    opMinusAssign_spec fuel a (BigInt.ofInt64 1) ha hone (Or.inr hlen)
  have hv : (BigInt.ofInt64 1).val = 1 := by decide
  rw [hv] at v1 v2
  refine ⟨up, down, c1, v1, c2, v2, e1, ?_, e2, ?_⟩
  · unfold BigInt.opPostInc
    rw [e1]
    rfl
  · unfold BigInt.opPostDec
    rw [e2]
    rfl

/-- C15 at `-1` (increment crosses to `0`) and at `0` (decrement crosses to
`-1`). -/
theorem increment_decrement_witness :
    (BigInt.ofInt64 (-1)).Canonical ∧
    (∃ up down : BigInt,
      up.Canonical ∧ up.val = (BigInt.ofInt64 (-1)).val + 1 ∧
      down.Canonical ∧ down.val = (BigInt.ofInt64 (-1)).val - 1 ∧
      BigInt.opPreInc 3 (BigInt.ofInt64 (-1)) = some up ∧
      BigInt.opPostInc 3 (BigInt.ofInt64 (-1)) = some (up, BigInt.ofInt64 (-1)) ∧
      BigInt.opPreDec 3 (BigInt.ofInt64 (-1)) = some down ∧
      BigInt.opPostDec 3 (BigInt.ofInt64 (-1)) = some (down, BigInt.ofInt64 (-1))) ∧
    BigInt.opPreInc 3 (BigInt.ofInt64 (-1)) = some (BigInt.ofInt64 0) ∧
    BigInt.opPreDec 3 (BigInt.ofInt64 0) = some (BigInt.ofInt64 (-1)) :=
  ⟨by decide, increment_decrement (BigInt.ofInt64 (-1)) (by decide) 0, by decide, by decide⟩

/-- C17: for canonical `a` and `b` whose signs differ, or with `a` having at
least as many digits as `b`, and for every fuel from 3 on, `a + b` is
canonical and `val (a + b) = val a + val b`. -/
theorem opPlus_exact_left_longer_or_mixed (a b : BigInt) (ha : a.Canonical)
    (hb : b.Canonical)
    (h : a.is_positive_ ≠ b.is_positive_ ∨ b.digits_.length ≤ a.digits_.length)
    (fuel : Nat) :
    ∃ r, BigInt.opPlus (fuel + 3) a b = some r ∧ r.Canonical ∧ r.val = a.val + b.val :=
  opPlusAssign_spec fuel a b ha hb h

/-- C17 at `9223372036854775807 + 1` and at the mixed-sign `1 + (-10)`. -/
theorem opPlus_exact_left_longer_or_mixed_witness :
    (BigInt.ofInt64 9223372036854775807).Canonical ∧ (BigInt.ofInt64 1).Canonical ∧
    (BigInt.ofInt64 1).digits_.length ≤ (BigInt.ofInt64 9223372036854775807).digits_.length ∧
    (∃ r, BigInt.opPlus 3 (BigInt.ofInt64 9223372036854775807) (BigInt.ofInt64 1) = some r ∧
      r.Canonical ∧
      r.val = (BigInt.ofInt64 9223372036854775807).val + (BigInt.ofInt64 1).val) ∧
    BigInt.opPlus 3 (BigInt.ofInt64 1) (BigInt.ofInt64 (-10)) = some (BigInt.ofInt64 (-9)) :=
  ⟨by decide, by decide, by decide,
    opPlus_exact_left_longer_or_mixed (BigInt.ofInt64 9223372036854775807) (BigInt.ofInt64 1)
      (by decide) (by decide) (Or.inr (by decide)) 0,
    by decide⟩

/-! ## Long division: one step -/

theorem ofInt64_kBase : BigInt.ofInt64 kBase = ⟨true, [0, 1]⟩ := by decide

end BigInteger
